import Mathlib

/-
Verification of the core of the EntityComponentSystem repository:

* the `SystemManager::UpdateSystemWorkOrder` scheduler
  (src/EntityComponentSystem/src/SystemManager.cpp): weak-component
  partitioning of the dependency matrix, per-group DFS topological sort,
  priority-ordered group assembly, and the work-state mask;
* the chunked entity storage (src/EntityComponentSystem/include/EntityManager.h):
  `EntityContainer::CreateEntity`, `EntityContainer::DestroyEntity`, and
  `EntityManager::GetEntity`.

Systems are represented by their dense type indices, entities by their raw
addresses (as natural numbers).  Fallible operations (C++ `assert`) return
`Option`.
-/

set_option maxHeartbeats 1000000

namespace ECS

/-! ## Scheduler data model -/

/-- Dependency adjacency matrix over system type indices, as in
`SystemManager::m_SystemDependencyMatrix`: `M[i][j] = true` means system `i`
must run after system `j`. -/
abbrev DependencyMatrix := List (List Bool)

/-- Entry `M[i][j]` of the dependency matrix; out-of-range reads are `false`
(the C++ code only indexes in range). -/
def edge (M : DependencyMatrix) (i j : Nat) : Bool :=
  (M.getD i []).getD j false

/-- A square dependency matrix: every row has as many entries as there are
rows (the C++ matrix is resized uniformly at system registration). -/
def SquareMatrix (M : DependencyMatrix) : Prop :=
  ∀ row ∈ M, row.length = M.length

instance (M : DependencyMatrix) : Decidable (SquareMatrix M) := by
  unfold SquareMatrix; infer_instance

/-- Modelled from the spec (§4.3): `LOWEST_SYSTEM_PRIORITY` is declared in a
header that is not part of the given sources; the spec only requires it to be
the least priority value, so for `Nat` priorities it is `0`. -/
def LOWEST_SYSTEM_PRIORITY : Nat := 0

/-- Modelled from the spec (§3): `std::numeric_limits<SystemPriority>::max()`
for the bounded unsigned scalar priority type declared in a header that is
not part of the given sources (a 16-bit unsigned value). -/
def MAX_SYSTEM_PRIORITY : Nat := 65535

/-! ## The DFS of `UpdateSystemWorkOrder` (SystemManager.cpp lines 74-86)

The C++ lambda `DFS` marks the vertex visited, recursively visits every
`i` with `EDGES[i][vertex] == true && VERTEX_STATE[i] == 0`, marks the vertex
done and appends it to the postorder output.  The call-site guard
`VERTEX_STATE[i] == 0` is folded into `dfsVisit`; `fuel` is an explicit
recursion bound (the C++ recursion terminates because every recursive call
consumes an unvisited vertex, and `dfsVisit` agrees with the unbounded
recursion whenever `fuel` is at least the number of unvisited vertices, which
the callers ensure by passing the state length). -/

mutual

def dfsVisit (M : DependencyMatrix) : Nat → Nat → List Nat → List Nat →
    List Nat × List Nat
  | 0, _, st, out => (st, out)
  | fuel+1, v, st, out =>
    if st.getD v 1 = 0 then
      let p := dfsLoop M fuel v (List.range st.length) (st.set v 1) out
      (p.1.set v 2, p.2 ++ [v])
    else (st, out)
termination_by fuel _ _ _ => (fuel, 0)

def dfsLoop (M : DependencyMatrix) (fuel v : Nat) :
    List Nat → List Nat → List Nat → List Nat × List Nat
  | [], st, out => (st, out)
  | i :: rest, st, out =>
    if edge M i v = true then
      let p := dfsVisit M fuel i st out
      dfsLoop M fuel v rest p.1 p.2
    else dfsLoop M fuel v rest st out
termination_by is _ _ => (fuel, is.length + 1)

end

/-! ## Weak-component partitioning (SystemManager.cpp lines 91-134) -/

/-- One scan of `INDICES` inside the flood fill (SystemManager.cpp lines
119-126), starting at position `k`: every not-yet-removed index adjacent to
`v` (in either direction of the dependency matrix) is overwritten with `-1`
and collected for the `member` stack, in increasing position order. -/
def markNeighborsAux (M : DependencyMatrix) (v : Nat) :
    Nat → List Int → List Int × List Nat
  | _, [] => ([], [])
  | k, x :: rest =>
    let p := markNeighborsAux M v (k+1) rest
    if x ≠ -1 ∧ (edge M k v = true ∨ edge M v k = true) then
      (-1 :: p.1, k :: p.2)
    else (x :: p.1, p.2)

/-- Number of entries of `INDICES` not yet overwritten with `-1`. -/
def nonNegCount (l : List Int) : Nat := l.countP (fun x => decide (x ≠ -1))

theorem nonNegCount_cons (x : Int) (l : List Int) :
    nonNegCount (x :: l) = nonNegCount l + (if x = -1 then 0 else 1) := by
  by_cases hx : x = -1 <;> simp [nonNegCount, List.countP_cons, hx]

theorem markNeighborsAux_length (M : DependencyMatrix) (v : Nat) :
    ∀ (k : Nat) (l : List Int), (markNeighborsAux M v k l).1.length = l.length := by
  intro k l
  induction l generalizing k with
  | nil => rfl
  | cons x rest ih =>
    simp only [markNeighborsAux]
    split <;> simp [ih]

theorem markNeighborsAux_count (M : DependencyMatrix) (v : Nat) :
    ∀ (k : Nat) (l : List Int),
      nonNegCount (markNeighborsAux M v k l).1 + (markNeighborsAux M v k l).2.length
        = nonNegCount l := by
  intro k l
  induction l generalizing k with
  | nil => rfl
  | cons x rest ih =>
    have hr := ih (k+1)
    simp only [markNeighborsAux]
    split
    · rename_i h
      show nonNegCount (-1 :: _) + (k :: _).length = _
      rw [nonNegCount_cons, nonNegCount_cons, if_pos rfl, if_neg h.1]
      simp only [List.length_cons]
      omega
    · rename_i h
      dsimp only
      rw [nonNegCount_cons, nonNegCount_cons]
      omega

theorem markNeighborsAux_nil_push (M : DependencyMatrix) (v : Nat) :
    ∀ (k : Nat) (l : List Int),
      (markNeighborsAux M v k l).2 = [] → (markNeighborsAux M v k l).1 = l := by
  intro k l
  induction l generalizing k with
  | nil => intro; rfl
  | cons x rest ih =>
    simp only [markNeighborsAux]
    split
    · intro h; simp at h
    · intro h
      simp only at h ⊢
      rw [ih (k+1) h]

/-- The flood fill over one weak dependency group (SystemManager.cpp lines
108-130): pop a member from the stack, absorb every unmarked index adjacent
to it, record the member in the group and fold its priority into the group
priority. -/
def floodLoop (M : DependencyMatrix) (prio : List Nat) :
    List Nat → List Int → List Nat → Nat → List Int × List Nat × Nat
  | [], indices, group, gp => (indices, group.reverse, gp)
  | v :: member, indices, group, gp =>
    let p := markNeighborsAux M v 0 indices
    floodLoop M prio (p.2.reverse ++ member) p.1 (v :: group)
      (max (prio.getD v 0) gp)
termination_by member indices _ _ => (nonNegCount indices, member.length)
decreasing_by
  simp_wf
  rcases hp : (markNeighborsAux M v 0 indices).2 with _ | ⟨a, as⟩
  · have h1 : (markNeighborsAux M v 0 indices).1 = indices :=
      markNeighborsAux_nil_push M v 0 indices hp
    rw [h1]
    exact Prod.Lex.right _ (by simp)
  · apply Prod.Lex.left
    have hc := markNeighborsAux_count M v 0 indices
    rw [hp] at hc
    simp only [List.length_cons] at hc
    omega

theorem floodLoop_length (M : DependencyMatrix) (prio : List Nat) :
    ∀ (member : List Nat) (indices : List Int) (group : List Nat) (gp : Nat),
      (floodLoop M prio member indices group gp).1.length = indices.length := by
  intro member indices group gp
  induction member, indices, group, gp using floodLoop.induct M prio with
  | case1 indices group gp => simp [floodLoop]
  | case2 v member indices group gp p ih =>
    rw [floodLoop]
    exact ih.trans (markNeighborsAux_length M v 0 indices)

/-- The outer partitioning loop of `UpdateSystemWorkOrder` (SystemManager.cpp
lines 100-134): pop the back of `INDICES`, skip removed entries, flood-fill a
new group from the popped index.  Returns the groups and their priorities in
discovery order. -/
def buildGroupsLoop (M : DependencyMatrix) (prio : List Nat) :
    List Int → List (List Nat) → List Nat → List (List Nat) × List Nat
  | [], gs, ps => (gs.reverse, ps.reverse)
  | x :: xs, gs, ps =>
    let index := (x :: xs).getLast (List.cons_ne_nil x xs)
    let rest := (x :: xs).dropLast
    if index = -1 then buildGroupsLoop M prio rest gs ps
    else
      let r := floodLoop M prio [index.toNat] rest [] LOWEST_SYSTEM_PRIORITY
      buildGroupsLoop M prio r.1 (r.2.1 :: gs) (r.2.2 :: ps)
termination_by idx _ _ => idx.length
decreasing_by
  · simp [List.length_dropLast]
  · simp [floodLoop_length, List.length_dropLast]

/-- The weak-component partitioning of `UpdateSystemWorkOrder`
(SystemManager.cpp lines 91-134), started from `INDICES = [0, …, n-1]`. -/
def buildGroups (M : DependencyMatrix) (prio : List Nat) :
    List (List Nat) × List Nat :=
  buildGroupsLoop M prio ((List.range M.length).map Int.ofNat) [] []

/-! ## Per-group topological sort and assembly (SystemManager.cpp 139-175) -/

/-- The per-group DFS loop (SystemManager.cpp lines 150-154): run the DFS from
every member of the group over the shared `vertex_states`. -/
def groupFold (M : DependencyMatrix) (g : List Nat)
    (st : List Nat) (out : List Nat) : List Nat × List Nat :=
  g.foldl (fun q v => dfsVisit M q.1.length v q.1 q.2) (st, out)

/-- Intra-group orders in group discovery order: each group's order is the
reverse of the postorder its DFS pass emits (SystemManager.cpp line 156), with
`vertex_states` shared between the groups. -/
def groupOrdersAux (M : DependencyMatrix) :
    List (List Nat) → List Nat → List (List Nat)
  | [], _ => []
  | g :: gs, st =>
    let q := groupFold M g st []
    q.2.reverse :: groupOrdersAux M gs q.1

/-- `std::multimap` insertion with ascending keys; equal keys keep insertion
order (since C++11 `multimap::insert` inserts at the upper bound of the equal
range).  Used with key `max - priority` (SystemManager.cpp line 159). -/
def mmInsert (k : Nat) (g : List Nat) :
    List (Nat × List Nat) → List (Nat × List Nat)
  | [] => [(k, g)]
  | q :: rest => if q.1 ≤ k then q :: mmInsert k g rest else (k, g) :: q :: rest

/-- Insert every group, keyed by `MAX_SYSTEM_PRIORITY - group priority`, into
the multimap (SystemManager.cpp lines 141-160). -/
def sortedGroups (gps : List Nat) (orders : List (List Nat)) :
    List (Nat × List Nat) :=
  (List.zip gps orders).foldl
    (fun acc q => mmInsert (MAX_SYSTEM_PRIORITY - q.1) q.2 acc) []

/-- `SystemManager::UpdateSystemWorkOrder` (SystemManager.cpp lines 71-176):
partition the systems into weak dependency groups, topologically sort each
group by reversed DFS postorder, order the groups by descending group
priority (ascending `max - priority` multimap keys) and concatenate into the
flat work order of system type indices. -/
def computeWorkOrder (M : DependencyMatrix) (prio : List Nat) : List Nat :=
  let gb := buildGroups M prio
  let orders := groupOrdersAux M gb.1 (List.replicate M.length 0)
  ((sortedGroups gb.2 orders).map Prod.snd).flatten

/-! ## The system manager state -/

/-- The scheduling-relevant state of `ECS::SystemManager`: the dependency
matrix, the registered systems' priorities and active flags (indexed by
system type id), and the current work order (as type indices). -/
structure SystemManager where
  m_SystemDependencyMatrix : DependencyMatrix
  m_SystemPriorities : List Nat
  m_SystemActive : List Bool
  m_SystemWorkOrder : List Nat

/-- `SystemManager::UpdateSystemWorkOrder` as a state transformer: rebuilds
`m_SystemWorkOrder` from the dependency matrix and the system priorities,
leaving everything else unchanged. -/
def UpdateSystemWorkOrder (s : SystemManager) : SystemManager :=
  { s with m_SystemWorkOrder :=
      computeWorkOrder s.m_SystemDependencyMatrix s.m_SystemPriorities }

/-- `SystemManager::GetSystemWorkState` (SystemManager.cpp lines 178-188):
snapshot the active flag of every system in work-order position. -/
def GetSystemWorkState (s : SystemManager) : List Bool :=
  s.m_SystemWorkOrder.map (fun i => s.m_SystemActive.getD i false)

/-- `SystemManager::SetSystemWorkState` (SystemManager.cpp lines 190-198):
restore a snapshot; the mask length must equal the work-order length
(otherwise the C++ assertion fires, modelled as `none`). -/
def SetSystemWorkState (s : SystemManager) (mask : List Bool) :
    Option SystemManager :=
  if mask.length = s.m_SystemWorkOrder.length then
    some { s with
      m_SystemActive := (List.zip s.m_SystemWorkOrder mask).foldl
        (fun act q => act.set q.1 q.2) s.m_SystemActive }
  else none

/-! ## Entity storage data model (EntityManager.h) -/

/-- Modelled from the spec (§2, §6): the pool allocator collaborator — a
fixed-slot-size allocator over one caller-supplied memory block, handing out
a slot or null when exhausted, with `free` returning a slot to the free
list.  The allocator implementation lives outside the given sources; slots
are modelled by their indices, addresses by naturals. -/
structure PoolAllocator where
  firstAddress : Nat
  slotSize : Nat
  freeSlots : List Nat

/-- `allocate(size, align)`: hand out the next free slot's address, or `none`
when exhausted. -/
def PoolAllocator.allocate (a : PoolAllocator) : Option Nat × PoolAllocator :=
  match a.freeSlots with
  | [] => (none, a)
  | i :: rest => (some (a.firstAddress + i * a.slotSize), { a with freeSlots := rest })

/-- `free(ptr)`: return the slot holding `ptr` to the free list. -/
def PoolAllocator.free (a : PoolAllocator) (ptr : Nat) : PoolAllocator :=
  { a with freeSlots := (ptr - a.firstAddress) / a.slotSize :: a.freeSlots }

/-- `EntityContainer::EntityMemoryChunk` (EntityManager.h lines 63-78): one
fixed-capacity memory chunk, its pool allocator, resident entity addresses,
and its address range `[chunkStart, chunkEnd)`. -/
structure EntityMemoryChunk where
  allocator : PoolAllocator
  entities : List Nat
  chunkStart : Nat
  chunkEnd : Nat

/-- Chunk construction (EntityManager.h lines 71-76 together with lines 88-89
and 150-151): a fresh pool allocator over `ALLOC_SIZE = sizeof(T) *
ENITY_T_ALLOCATION_AMOUNT` bytes of newly acquired global memory at address
`addr`; `chunkStart` is the allocator's first address, `chunkEnd` is
`chunkStart + ALLOC_SIZE`.  `sizeT` models `sizeof(T)` and `amount` models
`ENITY_T_ALLOCATION_AMOUNT` (a constant from a header outside the sources,
kept abstract). -/
def newChunk (sizeT amount addr : Nat) : EntityMemoryChunk :=
  { allocator := { firstAddress := addr, slotSize := sizeT,
                   freeSlots := List.range amount }
    entities := []
    chunkStart := addr
    chunkEnd := addr + sizeT * amount }

/-- The chunk scan of `EntityContainer::CreateEntity` (EntityManager.h lines
131-145): walk the chunk list front (newest) first; skip a chunk whose
occupant count exceeds `ENITY_T_ALLOCATION_AMOUNT`; otherwise ask its
allocator for a slot and, on success, append the slot to the chunk's entity
list and stop.  Returns the slot and updated chunk list, `none` if no chunk
yields a slot. -/
def scanChunks (amount : Nat) :
    List EntityMemoryChunk → Option (Nat × List EntityMemoryChunk)
  | [] => none
  | ch :: rest =>
    if ch.entities.length > amount then
      (scanChunks amount rest).map (fun q => (q.1, ch :: q.2))
    else
      match ch.allocator.allocate with
      | (some slot, a2) =>
          let ch2 := { ch with allocator := a2, entities := ch.entities ++ [slot] }
          some (slot, ch2 :: rest)
      | (none, _) => (scanChunks amount rest).map (fun q => (q.1, ch :: q.2))

/-- `EntityContainer::CreateEntity` (EntityManager.h lines 129-163): scan the
chunks for a free slot; if none yields one, acquire fresh global memory,
build a new chunk, put it at the front of the chunk list and allocate from
it; the C++ assertion (`Out of memory?!`) when even the fresh chunk fails is
modelled as `none`.  `fresh` models the next address the global memory
collaborator hands out (fresh blocks are disjoint from and above all earlier
ones); the result carries the slot, the new chunk list, and the next fresh
address. -/
def CreateEntity (sizeT amount : Nat) (chunks : List EntityMemoryChunk)
    (fresh : Nat) : Option (Nat × List EntityMemoryChunk × Nat) :=
  match scanChunks amount chunks with
  | some q => some (q.1, q.2, fresh)
  | none =>
    let nc := newChunk sizeT amount fresh
    match nc.allocator.allocate with
    | (some slot, a2) =>
        some (slot, { nc with allocator := a2, entities := [slot] } :: chunks,
              fresh + sizeT * amount)
    | (none, _) => none

/-- `EntityContainer::DestroyEntity` (EntityManager.h lines 165-182): find the
first chunk whose range `[chunkStart, chunkEnd)` contains the address, remove
the address from its entity list (`std::list::remove`, i.e. every occurrence)
and return the slot to that chunk's allocator; the assertion when no chunk
contains the address is modelled as `none`. -/
def DestroyEntity (ptr : Nat) :
    List EntityMemoryChunk → Option (List EntityMemoryChunk)
  | [] => none
  | ch :: rest =>
    if ch.chunkStart ≤ ptr ∧ ch.chunkEnd > ptr then
      let ents := ch.entities.filter (fun q => decide (q ≠ ptr))
      let ch2 := { ch with entities := ents, allocator := ch.allocator.free ptr }
      some (ch2 :: rest)
    else (DestroyEntity ptr rest).map (fun c => ch :: c)

/-- All live entity addresses of a container. -/
def liveAddrs (chunks : List EntityMemoryChunk) : List Nat :=
  (chunks.map EntityMemoryChunk.entities).flatten

/-- Container states reachable from construction
(`EntityContainer::EntityContainer`, EntityManager.h lines 86-90, which
eagerly creates one chunk) by any sequence of successful `CreateEntity` calls
and `DestroyEntity` calls on live entities.  The state is the chunk list
paired with the global allocator's next fresh address. -/
inductive ReachableContainer (sizeT amount : Nat) :
    List EntityMemoryChunk × Nat → Prop
  | init (addr : Nat) :
      ReachableContainer sizeT amount
        ([newChunk sizeT amount addr], addr + sizeT * amount)
  | create {s : List EntityMemoryChunk × Nat} {slot : Nat}
      {c2 : List EntityMemoryChunk} {f2 : Nat} :
      ReachableContainer sizeT amount s →
      CreateEntity sizeT amount s.1 s.2 = some (slot, c2, f2) →
      ReachableContainer sizeT amount (c2, f2)
  | destroy {s : List EntityMemoryChunk × Nat} {ptr : Nat}
      {c2 : List EntityMemoryChunk} :
      ReachableContainer sizeT amount s →
      ptr ∈ liveAddrs s.1 →
      DestroyEntity ptr s.1 = some c2 →
      ReachableContainer sizeT amount (c2, s.2)

/-! ## The entity manager lookup (EntityManager.h lines 348-352) -/

/-- Modelled from the spec (§3): the invalid-id sentinel `INVALID_ENTITY_ID`
is declared in a header outside the given sources; the spec only requires a
sentinel outside the valid range (the maximal value of the 32-bit id type). -/
def INVALID_ENTITY_ID : Nat := 4294967295

/-- The lookup-relevant state of `ECS::EntityManager`: `m_EntityLUT`, the
id → object table (entries are raw object addresses). -/
structure EntityManagerState where
  m_EntityLUT : List Nat

/-- `EntityManager::GetEntity` (EntityManager.h lines 348-352): assert that
the id is not the invalid sentinel and is below the lookup table's size
(modelled as `none`), then return the table entry at index `id`. -/
def GetEntity (m : EntityManagerState) (id : Nat) : Option Nat :=
  if id ≠ INVALID_ENTITY_ID ∧ id < m.m_EntityLUT.length then
    some (m.m_EntityLUT.getD id 0)
  else none

/-! ## Small list lemmas -/

theorem list_set_getD_self {α : Type} (l : List α) (i : Nat) (d : α) :
    l.set i (l.getD i d) = l := by
  induction l generalizing i with
  | nil => rfl
  | cons x xs ih =>
    cases i with
    | zero => rfl
    | succ j =>
      show x :: xs.set j (xs.getD j d) = x :: xs
      rw [ih]

/-! ## C7: the get/set work-state round trip is the identity -/

theorem setWorkState_fold_id (wo : List Nat) (act : List Bool) :
    (List.zip wo (wo.map (fun i => act.getD i false))).foldl
      (fun a q => a.set q.1 q.2) act = act := by
  induction wo with
  | nil => rfl
  | cons i rest ih =>
    simp only [List.map_cons, List.zip_cons_cons, List.foldl_cons]
    rw [list_set_getD_self, ih]

/-- C7: for every current work order and every assignment of active flags,
`SetSystemWorkState (GetSystemWorkState())` succeeds (the captured mask has
exactly the work-order length) and leaves the whole manager state — in
particular every system's active flag — exactly as it was. -/
theorem get_set_work_state_round_trip (s : SystemManager) :
    SetSystemWorkState s (GetSystemWorkState s) = some s := by
  unfold SetSystemWorkState GetSystemWorkState
  rw [if_pos (by simp)]
  simp only [setWorkState_fold_id]

/-! ## C8: `UpdateSystemWorkOrder` is deterministic -/

/-- C8: recomputing the work order is deterministic — the work order is a
function of the dependency matrix and the registered systems' priorities
only, and `UpdateSystemWorkOrder` changes neither, so running it twice with
no intervening registration or matrix change produces the identical work
order sequence (indeed the identical manager state). -/
theorem updateSystemWorkOrder_deterministic (s : SystemManager) :
    (UpdateSystemWorkOrder (UpdateSystemWorkOrder s)).m_SystemWorkOrder
      = (UpdateSystemWorkOrder s).m_SystemWorkOrder ∧
    UpdateSystemWorkOrder (UpdateSystemWorkOrder s) = UpdateSystemWorkOrder s :=
  ⟨rfl, rfl⟩

/-! ## C9: `GetEntity` error behaviour -/

/-- C9: `GetEntity id` fails exactly when `id` is the invalid sentinel or is
not below the current size of the id → object lookup table; for every other
id it returns the lookup-table entry at index `id`. -/
theorem getEntity_spec (m : EntityManagerState) (id : Nat) :
    (GetEntity m id = none ↔
      id = INVALID_ENTITY_ID ∨ m.m_EntityLUT.length ≤ id) ∧
    (id ≠ INVALID_ENTITY_ID → id < m.m_EntityLUT.length →
      GetEntity m id = some (m.m_EntityLUT.getD id 0)) := by
  constructor
  · unfold GetEntity
    split
    · rename_i h
      have hno : ¬(id = INVALID_ENTITY_ID ∨ m.m_EntityLUT.length ≤ id) := by
        push_neg
        exact ⟨h.1, h.2⟩
      simp [hno]
    · rename_i h
      simp only [true_iff]
      rw [Decidable.not_and_iff_or_not] at h
      rcases h with h | h
      · left; exact Decidable.not_not.mp h
      · right; omega
  · intro h1 h2
    unfold GetEntity
    rw [if_pos ⟨h1, h2⟩]

/-- Witness for C9 at a concrete state: looking up id 1 in a two-entry table
returns the second entry. -/
theorem getEntity_spec_witness :
    (1 : Nat) ≠ INVALID_ENTITY_ID ∧ (1 : Nat) < 2 ∧
    GetEntity ⟨[7, 8]⟩ 1 = some 8 :=
  ⟨by decide, by decide,
    (getEntity_spec ⟨[7, 8]⟩ 1).2 (by decide) (by decide)⟩

/-! ## C5: `CreateEntity` chunk scan behaviour -/

/-- A chunk refuses an allocation during the scan when it is skipped (its
occupant count exceeds the capacity) or its allocator yields null. -/
theorem scanChunks_none_iff (amount : Nat) (chunks : List EntityMemoryChunk) :
    scanChunks amount chunks = none ↔
      ∀ ch ∈ chunks,
        amount < ch.entities.length ∨ (ch.allocator.allocate).1 = none := by
  induction chunks with
  | nil => simp [scanChunks]
  | cons ch rest ih =>
    simp only [scanChunks]
    by_cases hskip : ch.entities.length > amount
    · rw [if_pos hskip]
      simp [Option.map_eq_none', ih, List.forall_mem_cons, hskip]
    · rw [if_neg hskip]
      rcases halloc : ch.allocator.allocate with ⟨o, a2⟩
      cases o with
      | some slot =>
        dsimp only
        simp only [reduceCtorEq, false_iff]
        intro hall
        have := hall ch (by simp)
        rcases this with h | h
        · exact hskip h
        · rw [halloc] at h; exact Option.some_ne_none _ h
      | none =>
        dsimp only
        simp only [Option.map_eq_none', ih, List.forall_mem_cons]
        have hh : amount < ch.entities.length ∨ (ch.allocator.allocate).1 = none := by
          right; rw [halloc]
        simp [hh]

/-- The scan takes the first chunk that is neither skipped nor exhausted,
updates exactly that chunk (appending the slot to its entity list, advancing
its allocator) and leaves every other chunk unchanged. -/
theorem scanChunks_found (amount : Nat) (pre : List EntityMemoryChunk) :
    ∀ (ch : EntityMemoryChunk) (post : List EntityMemoryChunk) (slot : Nat)
      (a2 : PoolAllocator),
      (∀ c ∈ pre, amount < c.entities.length ∨ (c.allocator.allocate).1 = none) →
      ¬ amount < ch.entities.length →
      ch.allocator.allocate = (some slot, a2) →
      scanChunks amount (pre ++ ch :: post)
        = some (slot, pre ++
            { ch with allocator := a2, entities := ch.entities ++ [slot] } :: post) := by
  induction pre with
  | nil =>
    intro ch post slot a2 hpre hcap halloc
    simp only [List.nil_append, scanChunks]
    rw [if_neg hcap, halloc]
  | cons c cs ih =>
    intro ch post slot a2 hpre hcap halloc
    have hrest := ih ch post slot a2 (fun d hd => hpre d (by simp [hd])) hcap halloc
    have hc := hpre c (by simp)
    simp only [List.cons_append, scanChunks, List.append_eq]
    rcases hc with hc | hc
    · rw [if_pos hc, hrest]
      rfl
    · by_cases hskip : c.entities.length > amount
      · rw [if_pos hskip, hrest]
        rfl
      · rw [if_neg hskip]
        rcases halloc2 : c.allocator.allocate with ⟨o, a3⟩
        cases o with
        | some s =>
          rw [halloc2] at hc
          exact absurd hc (Option.some_ne_none _)
        | none =>
          dsimp only
          rw [hrest]
          rfl

/-- C5: `CreateEntity` (i) fails fatally exactly when every existing chunk is
skipped (occupant count exceeded) or yields null **and** the freshly created
chunk cannot satisfy the single allocation; (ii) when the newest-first scan
reaches a first chunk that is within capacity and whose allocator yields a
slot, it returns that slot, updating only that chunk and allocating no new
chunk; (iii) when every existing chunk is full or yields null and the fresh
chunk (of the fixed per-chunk capacity `amount`) can allocate, the fresh
chunk is inserted at the front of the chunk list — so it is tried first on
the next call — and the slot comes from it. -/
theorem createEntity_spec (sizeT amount : Nat) :
    (∀ (chunks : List EntityMemoryChunk) (fresh : Nat),
      CreateEntity sizeT amount chunks fresh = none ↔
        ((∀ ch ∈ chunks,
            amount < ch.entities.length ∨ (ch.allocator.allocate).1 = none) ∧
         ((newChunk sizeT amount fresh).allocator.allocate).1 = none)) ∧
    (∀ (pre : List EntityMemoryChunk) (ch : EntityMemoryChunk)
       (post : List EntityMemoryChunk) (slot : Nat) (a2 : PoolAllocator)
       (fresh : Nat),
      (∀ c ∈ pre, amount < c.entities.length ∨ (c.allocator.allocate).1 = none) →
      ¬ amount < ch.entities.length →
      ch.allocator.allocate = (some slot, a2) →
      CreateEntity sizeT amount (pre ++ ch :: post) fresh
        = some (slot, pre ++
            { ch with allocator := a2, entities := ch.entities ++ [slot] } :: post,
            fresh)) ∧
    (∀ (chunks : List EntityMemoryChunk) (fresh slot : Nat) (a2 : PoolAllocator),
      (∀ ch ∈ chunks,
        amount < ch.entities.length ∨ (ch.allocator.allocate).1 = none) →
      (newChunk sizeT amount fresh).allocator.allocate = (some slot, a2) →
      CreateEntity sizeT amount chunks fresh
        = some (slot,
            { newChunk sizeT amount fresh with allocator := a2, entities := [slot] } :: chunks,
            fresh + sizeT * amount)) := by
  refine ⟨?_, ?_, ?_⟩
  · intro chunks fresh
    unfold CreateEntity
    cases hs : scanChunks amount chunks with
    | some q =>
      dsimp only
      simp only [reduceCtorEq, false_iff]
      intro hc
      rw [← scanChunks_none_iff amount chunks] at hc
      exact absurd (hc.1.symm.trans hs) (by simp)
    | none =>
      dsimp only
      rcases halloc : (newChunk sizeT amount fresh).allocator.allocate with ⟨o, a2⟩
      cases o with
      | some slot => simp
      | none =>
        simp only [reduceCtorEq, and_true, true_iff]
        exact (scanChunks_none_iff amount chunks).mp hs
  · intro pre ch post slot a2 fresh hpre hcap halloc
    unfold CreateEntity
    rw [scanChunks_found amount pre ch post slot a2 hpre hcap halloc]
  · intro chunks fresh slot a2 hall halloc
    unfold CreateEntity
    rw [(scanChunks_none_iff amount chunks).mpr hall]
    dsimp only
    rw [halloc]

/-- Witness for C5 at a concrete container: one empty chunk at addresses
`[100, 108)` with two 4-byte slots; creating an entity returns the first slot
`100` and updates only that chunk. -/
theorem createEntity_spec_witness :
    CreateEntity 4 2 [newChunk 4 2 100] 108
      = some (100,
          [{ newChunk 4 2 100 with
              allocator := { firstAddress := 100, slotSize := 4, freeSlots := [1] },
              entities := [100] }],
          108) := by
  have h := (createEntity_spec 4 2).2.1 [] (newChunk 4 2 100) [] 100
    { firstAddress := 100, slotSize := 4, freeSlots := [1] } 108
    (by intro c hc; simp at hc) (by decide)
    (by show (newChunk 4 2 100).allocator.allocate = _; rfl)
  simpa using h

/-! ## C6: `DestroyEntity` chunk routing -/

/-- C6: `DestroyEntity ptr` (i) fails fatally exactly when no chunk's address
range `[chunkStart, chunkEnd)` contains `ptr`; (ii) when the first (hence,
under the container invariant, the unique) chunk whose range contains `ptr`
is found, it removes `ptr` from that chunk's entity list and returns the slot
to that chunk's allocator, leaving every other chunk unchanged. -/
theorem destroyEntity_spec :
    (∀ (ptr : Nat) (chunks : List EntityMemoryChunk),
      DestroyEntity ptr chunks = none ↔
        ∀ ch ∈ chunks, ¬ (ch.chunkStart ≤ ptr ∧ ptr < ch.chunkEnd)) ∧
    (∀ (pre : List EntityMemoryChunk) (ch : EntityMemoryChunk)
       (post : List EntityMemoryChunk) (ptr : Nat),
      (∀ c ∈ pre, ¬ (c.chunkStart ≤ ptr ∧ ptr < c.chunkEnd)) →
      ch.chunkStart ≤ ptr → ptr < ch.chunkEnd →
      DestroyEntity ptr (pre ++ ch :: post)
        = some (pre ++
            { ch with entities := ch.entities.filter (fun q => decide (q ≠ ptr)), allocator := ch.allocator.free ptr } :: post)) := by
  constructor
  · intro ptr chunks
    induction chunks with
    | nil => simp [DestroyEntity]
    | cons ch rest ih =>
      simp only [DestroyEntity]
      by_cases hin : ch.chunkStart ≤ ptr ∧ ch.chunkEnd > ptr
      · rw [if_pos hin]
        simp only [reduceCtorEq, false_iff]
        intro hall
        exact hall ch (by simp) ⟨hin.1, hin.2⟩
      · rw [if_neg hin]
        simp only [Option.map_eq_none', ih, List.forall_mem_cons]
        have : ¬ (ch.chunkStart ≤ ptr ∧ ptr < ch.chunkEnd) := by
          intro h; exact hin ⟨h.1, h.2⟩
        simp [this]
  · intro pre
    induction pre with
    | nil =>
      intro ch post ptr hpre h1 h2
      simp only [List.nil_append, DestroyEntity]
      rw [if_pos ⟨h1, h2⟩]
    | cons c cs ih =>
      intro ch post ptr hpre h1 h2
      have hc : ¬ (c.chunkStart ≤ ptr ∧ c.chunkEnd > ptr) := by
        intro h; exact hpre c (by simp) ⟨h.1, h.2⟩
      simp only [List.cons_append, DestroyEntity, List.append_eq]
      rw [if_neg hc, ih ch post ptr (fun d hd => hpre d (by simp [hd])) h1 h2]
      rfl

/-- Witness for C6 at a concrete container: destroying the live entity at
address 104 of the chunk `[100, 108)` removes it from that chunk's entity
list and returns its slot to the allocator. -/
theorem destroyEntity_spec_witness :
    DestroyEntity 104
        [{ allocator := { firstAddress := 100, slotSize := 4, freeSlots := [] },
           entities := [100, 104], chunkStart := 100, chunkEnd := 108 }]
      = some
        [{ allocator := { firstAddress := 100, slotSize := 4, freeSlots := [1] },
           entities := [100], chunkStart := 100, chunkEnd := 108 }] := by
  have h := destroyEntity_spec.2 []
    { allocator := { firstAddress := 100, slotSize := 4, freeSlots := [] },
      entities := [100, 104], chunkStart := 100, chunkEnd := 108 }
    [] 104 (by intro c hc; simp at hc) (by decide) (by decide)
  simpa using h

/-! ## C4: the chunk / container well-formedness invariant -/

/-- Well-formedness of one memory chunk: the allocator serves the chunk's own
address range in `sizeT`-sized slots, the free list holds distinct in-range
slot indices, and the resident entities occupy exactly the non-free slots. -/
structure ChunkWF (sizeT amount : Nat) (ch : EntityMemoryChunk) : Prop where
  first_eq : ch.allocator.firstAddress = ch.chunkStart
  slot_eq : ch.allocator.slotSize = sizeT
  end_eq : ch.chunkEnd = ch.chunkStart + sizeT * amount
  free_nodup : ch.allocator.freeSlots.Nodup
  free_lt : ∀ i ∈ ch.allocator.freeSlots, i < amount
  ent_nodup : ch.entities.Nodup
  ent_slots : ∀ p ∈ ch.entities,
    ∃ i, i < amount ∧ p = ch.chunkStart + i * sizeT ∧ i ∉ ch.allocator.freeSlots
  occ_live : ∀ i, i < amount → i ∉ ch.allocator.freeSlots →
    ch.chunkStart + i * sizeT ∈ ch.entities

/-- Well-formedness of a whole container state: every chunk is well-formed,
every chunk lies below the global allocator's next fresh address, and chunk
address ranges are pairwise disjoint. -/
structure ContainerWF (sizeT amount : Nat) (chunks : List EntityMemoryChunk)
    (fresh : Nat) : Prop where
  chunk_wf : ∀ ch ∈ chunks, ChunkWF sizeT amount ch
  below_fresh : ∀ ch ∈ chunks, ch.chunkEnd ≤ fresh
  disjoint : chunks.Pairwise
    (fun a b => a.chunkEnd ≤ b.chunkStart ∨ b.chunkEnd ≤ a.chunkStart)

theorem chunkWF_new (sizeT amount addr : Nat) :
    ChunkWF sizeT amount (newChunk sizeT amount addr) := by
  refine ⟨rfl, rfl, rfl, List.nodup_range amount, ?_, List.nodup_nil, ?_, ?_⟩
  · intro i hi
    exact List.mem_range.mp hi
  · intro p hp
    simp [newChunk] at hp
  · intro i hi hni
    exact absurd (List.mem_range.mpr hi) hni

/-- Successful allocation pops the head of the free list. -/
theorem allocate_some_elim {a : PoolAllocator} {slot : Nat} {a2 : PoolAllocator}
    (h : a.allocate = (some slot, a2)) :
    ∃ i rest, a.freeSlots = i :: rest ∧ slot = a.firstAddress + i * a.slotSize ∧
      a2 = { a with freeSlots := rest } := by
  unfold PoolAllocator.allocate at h
  rcases hf : a.freeSlots with _ | ⟨i, rest⟩
  · rw [hf] at h
    exact absurd (congrArg Prod.fst h) (by simp)
  · rw [hf] at h
    refine ⟨i, rest, rfl, ?_, ?_⟩
    · have := congrArg Prod.fst h
      simpa using this.symm
    · have := congrArg Prod.snd h
      simpa using this.symm

theorem slot_addr_inj {start sizeT i j : Nat} (hz : 0 < sizeT)
    (h : start + i * sizeT = start + j * sizeT) : i = j := by
  have h2 : i * sizeT = j * sizeT := by omega
  exact Nat.eq_of_mul_eq_mul_right hz h2

theorem chunkWF_alloc {sizeT amount : Nat} {ch : EntityMemoryChunk}
    {slot : Nat} {a2 : PoolAllocator} (hz : 0 < sizeT)
    (h : ChunkWF sizeT amount ch) (ha : ch.allocator.allocate = (some slot, a2)) :
    ChunkWF sizeT amount { ch with allocator := a2, entities := ch.entities ++ [slot] } := by
  obtain ⟨i, rest, hfs, hslot, ha2⟩ := allocate_some_elim ha
  have hslot2 : slot = ch.chunkStart + i * sizeT := by
    rw [hslot, h.first_eq, h.slot_eq]
  have hi_lt : i < amount := h.free_lt i (by rw [hfs]; exact List.mem_cons_self i rest)
  have hnodup : (i :: rest).Nodup := by rw [← hfs]; exact h.free_nodup
  have hslot_notin : slot ∉ ch.entities := by
    intro hmem
    obtain ⟨j, hj, hpj, hjf⟩ := h.ent_slots slot hmem
    have hij : j = i := slot_addr_inj hz (hpj.symm.trans hslot2)
    rw [hij] at hjf
    exact hjf (by rw [hfs]; exact List.mem_cons_self i rest)
  refine ⟨?_, ?_, h.end_eq, ?_, ?_, ?_, ?_, ?_⟩
  · show a2.firstAddress = ch.chunkStart
    rw [ha2]; exact h.first_eq
  · show a2.slotSize = sizeT
    rw [ha2]; exact h.slot_eq
  · show a2.freeSlots.Nodup
    rw [ha2]
    exact (List.nodup_cons.mp hnodup).2
  · intro j hj
    rw [ha2] at hj
    exact h.free_lt j (by rw [hfs]; exact List.mem_cons_of_mem i hj)
  · show (ch.entities ++ [slot]).Nodup
    simp [List.nodup_append, h.ent_nodup, hslot_notin]
  · intro p hp
    rcases List.mem_append.mp hp with hp | hp
    · obtain ⟨j, hj, hpj, hjf⟩ := h.ent_slots p hp
      refine ⟨j, hj, hpj, ?_⟩
      rw [ha2]
      intro hmem
      exact hjf (by rw [hfs]; exact List.mem_cons_of_mem i hmem)
    · have : p = slot := by simpa using hp
      refine ⟨i, hi_lt, by rw [this, hslot2], ?_⟩
      rw [ha2]
      exact (List.nodup_cons.mp hnodup).1
  · intro j hj hjf
    rw [ha2] at hjf
    by_cases hij : j = i
    · rw [hij, ← hslot2]
      simp
    · have : j ∉ ch.allocator.freeSlots := by
        rw [hfs]
        intro hmem
        rcases List.mem_cons.mp hmem with h1 | h1
        · exact hij h1
        · exact hjf h1
      have := h.occ_live j hj this
      exact List.mem_append.mpr (Or.inl this)

theorem chunkWF_free {sizeT amount : Nat} {ch : EntityMemoryChunk}
    {ptr : Nat} (hz : 0 < sizeT)
    (h : ChunkWF sizeT amount ch) (hp : ptr ∈ ch.entities) :
    ChunkWF sizeT amount
      { ch with entities := ch.entities.filter (fun q => decide (q ≠ ptr)), allocator := ch.allocator.free ptr } := by
  obtain ⟨i, hi, hptr, hif⟩ := h.ent_slots ptr hp
  have hdiv : (ptr - ch.allocator.firstAddress) / ch.allocator.slotSize = i := by
    rw [h.first_eq, h.slot_eq, hptr, Nat.add_sub_cancel_left, Nat.mul_div_cancel i hz]
  have hfree : (ch.allocator.free ptr).freeSlots = i :: ch.allocator.freeSlots := by
    unfold PoolAllocator.free
    rw [hdiv]
  refine ⟨h.first_eq, h.slot_eq, h.end_eq, ?_, ?_, ?_, ?_, ?_⟩
  · show (ch.allocator.free ptr).freeSlots.Nodup
    rw [hfree]
    exact List.nodup_cons.mpr ⟨hif, h.free_nodup⟩
  · intro j hj
    rw [hfree] at hj
    rcases List.mem_cons.mp hj with h1 | h1
    · rw [h1]; exact hi
    · exact h.free_lt j h1
  · exact h.ent_nodup.filter _
  · intro q hq
    have hq2 := List.mem_filter.mp hq
    have hqne : q ≠ ptr := by simpa using hq2.2
    obtain ⟨j, hj, hpj, hjf⟩ := h.ent_slots q hq2.1
    refine ⟨j, hj, hpj, ?_⟩
    rw [hfree]
    intro hmem
    rcases List.mem_cons.mp hmem with h1 | h1
    · rw [h1] at hpj
      exact hqne (hpj.trans hptr.symm)
    · exact hjf h1
  · intro j hj hjf
    rw [hfree] at hjf
    have hji : j ≠ i := fun he => hjf (by rw [he]; exact List.mem_cons_self _ _)
    have hjf2 : j ∉ ch.allocator.freeSlots :=
      fun hmem => hjf (List.mem_cons_of_mem i hmem)
    have hmem := h.occ_live j hj hjf2
    refine List.mem_filter.mpr ⟨hmem, ?_⟩
    simp only [decide_eq_true_eq]
    intro he
    exact hji (slot_addr_inj hz (he.trans hptr))

/-- Every resident entity's whole `sizeT`-byte footprint lies inside its
chunk's address range. -/
theorem ent_in_range {sizeT amount : Nat} {ch : EntityMemoryChunk} {p : Nat}
    (h : ChunkWF sizeT amount ch) (hp : p ∈ ch.entities) :
    ch.chunkStart ≤ p ∧ p + sizeT ≤ ch.chunkEnd := by
  obtain ⟨i, hi, hpi, _⟩ := h.ent_slots p hp
  constructor
  · rw [hpi]; exact Nat.le_add_right _ _
  · rw [hpi, h.end_eq]
    have : (i + 1) * sizeT ≤ amount * sizeT :=
      Nat.mul_le_mul_right sizeT hi
    calc ch.chunkStart + i * sizeT + sizeT
        = ch.chunkStart + (i + 1) * sizeT := by ring
      _ ≤ ch.chunkStart + amount * sizeT := by omega
      _ = ch.chunkStart + sizeT * amount := by ring

theorem ent_contains {sizeT amount : Nat} {ch : EntityMemoryChunk} {p : Nat}
    (hz : 0 < sizeT) (h : ChunkWF sizeT amount ch) (hp : p ∈ ch.entities) :
    ch.chunkStart ≤ p ∧ p < ch.chunkEnd := by
  obtain ⟨h1, h2⟩ := ent_in_range h hp
  exact ⟨h1, by omega⟩

/-- Inversion of a successful chunk scan: exactly one chunk — the first one
within capacity whose allocator yields a slot — is updated. -/
theorem scanChunks_some_elim {amount : Nat} :
    ∀ {chunks : List EntityMemoryChunk} {slot : Nat}
      {chunks2 : List EntityMemoryChunk},
      scanChunks amount chunks = some (slot, chunks2) →
      ∃ pre ch post a2, chunks = pre ++ ch :: post ∧
        ¬ amount < ch.entities.length ∧
        ch.allocator.allocate = (some slot, a2) ∧
        chunks2 = pre ++
          { ch with allocator := a2, entities := ch.entities ++ [slot] } :: post := by
  intro chunks
  induction chunks with
  | nil => intro slot chunks2 h; simp [scanChunks] at h
  | cons ch rest ih =>
    intro slot chunks2 h
    simp only [scanChunks] at h
    by_cases hskip : ch.entities.length > amount
    · rw [if_pos hskip] at h
      rcases hs : scanChunks amount rest with _ | q
      · rw [hs] at h; simp at h
      · rw [hs] at h
        simp only [Option.map_some', Option.some_inj] at h
        obtain ⟨pre, ch1, post, a2, he, hcap, halloc, he2⟩ :=
          ih (by rw [hs] : scanChunks amount rest = some (q.1, q.2))
        injection h with hq1 hq2
        refine ⟨ch :: pre, ch1, post, a2, by rw [List.cons_append, ← he], hcap,
          by rw [← hq1]; exact halloc, ?_⟩
        rw [← hq2, he2, hq1, List.cons_append]
    · rw [if_neg hskip] at h
      rcases halloc : ch.allocator.allocate with ⟨o, a2⟩
      rw [halloc] at h
      cases o with
      | some s =>
        simp only [Option.some_inj] at h
        injection h with hs1 hs2
        refine ⟨[], ch, rest, a2, rfl, hskip, by rw [← hs1]; exact halloc, ?_⟩
        rw [← hs2, ← hs1, List.nil_append]
      | none =>
        rcases hs : scanChunks amount rest with _ | q
        · rw [hs] at h; simp at h
        · rw [hs] at h
          simp only [Option.map_some', Option.some_inj] at h
          obtain ⟨pre, ch1, post, a2x, he, hcap, halloc2, he2⟩ :=
            ih (by rw [hs] : scanChunks amount rest = some (q.1, q.2))
          injection h with hq1 hq2
          refine ⟨ch :: pre, ch1, post, a2x, by rw [List.cons_append, ← he], hcap,
            by rw [← hq1]; exact halloc2, ?_⟩
          rw [← hq2, he2, hq1, List.cons_append]

/-- Inversion of a successful destroy: the first chunk whose range contains
the address is updated, every chunk before it does not contain the address. -/
theorem destroyEntity_some_elim {ptr : Nat} :
    ∀ {chunks chunks2 : List EntityMemoryChunk},
      DestroyEntity ptr chunks = some chunks2 →
      ∃ pre ch post, chunks = pre ++ ch :: post ∧
        (∀ c ∈ pre, ¬ (c.chunkStart ≤ ptr ∧ ptr < c.chunkEnd)) ∧
        (ch.chunkStart ≤ ptr ∧ ptr < ch.chunkEnd) ∧
        chunks2 = pre ++
          { ch with entities := ch.entities.filter (fun q => decide (q ≠ ptr)), allocator := ch.allocator.free ptr } :: post := by
  intro chunks
  induction chunks with
  | nil => intro chunks2 h; simp [DestroyEntity] at h
  | cons ch rest ih =>
    intro chunks2 h
    simp only [DestroyEntity] at h
    by_cases hin : ch.chunkStart ≤ ptr ∧ ch.chunkEnd > ptr
    · rw [if_pos hin] at h
      simp only [Option.some_inj] at h
      refine ⟨[], ch, rest, rfl, by intro c hc; simp at hc, ⟨hin.1, hin.2⟩, ?_⟩
      rw [← h, List.nil_append]
    · rw [if_neg hin] at h
      rcases hs : DestroyEntity ptr rest with _ | c2
      · rw [hs] at h; simp at h
      · rw [hs] at h
        simp only [Option.map_some', Option.some_inj] at h
        obtain ⟨pre, ch1, post, he, hpre, hcin, he2⟩ := ih hs
        refine ⟨ch :: pre, ch1, post, by rw [List.cons_append, ← he], ?_,
          hcin, ?_⟩
        · intro c hc
          rcases List.mem_cons.mp hc with h1 | h1
          · rw [h1]
            intro hcon
            exact hin ⟨hcon.1, hcon.2⟩
          · exact hpre c h1
        · rw [← h, he2, List.cons_append]

/-- Replacing one chunk with a range-preserving well-formed update keeps the
container well-formed. -/
theorem containerWF_replace {sizeT amount : Nat}
    {pre post : List EntityMemoryChunk} {ch ch2 : EntityMemoryChunk}
    {fresh : Nat}
    (h : ContainerWF sizeT amount (pre ++ ch :: post) fresh)
    (hwf2 : ChunkWF sizeT amount ch2)
    (hs : ch2.chunkStart = ch.chunkStart) (he : ch2.chunkEnd = ch.chunkEnd) :
    ContainerWF sizeT amount (pre ++ ch2 :: post) fresh := by
  refine ⟨?_, ?_, ?_⟩
  · intro c hc
    rcases List.mem_append.mp hc with h1 | h1
    · exact h.chunk_wf c (List.mem_append.mpr (Or.inl h1))
    · rcases List.mem_cons.mp h1 with h2 | h2
      · rw [h2]; exact hwf2
      · exact h.chunk_wf c (List.mem_append.mpr (Or.inr (List.mem_cons_of_mem ch h2)))
  · intro c hc
    rcases List.mem_append.mp hc with h1 | h1
    · exact h.below_fresh c (List.mem_append.mpr (Or.inl h1))
    · rcases List.mem_cons.mp h1 with h2 | h2
      · rw [h2, he]
        exact h.below_fresh ch (List.mem_append.mpr (Or.inr (List.mem_cons_self _ _)))
      · exact h.below_fresh c (List.mem_append.mpr (Or.inr (List.mem_cons_of_mem ch h2)))
  · have hd := h.disjoint
    rw [List.pairwise_append] at hd ⊢
    obtain ⟨hpre, hcp, hcross⟩ := hd
    rw [List.pairwise_cons] at hcp ⊢
    refine ⟨hpre, ⟨?_, hcp.2⟩, ?_⟩
    · intro b hb
      have := hcp.1 b hb
      rw [hs, he]
      exact this
    · intro a ha b hb
      rcases List.mem_cons.mp hb with h2 | h2
      · rw [h2, hs, he]
        exact hcross a ha ch (List.mem_cons_self _ _)
      · exact hcross a ha b (List.mem_cons_of_mem ch h2)

theorem containerWF_init (sizeT amount addr : Nat) :
    ContainerWF sizeT amount [newChunk sizeT amount addr]
      (addr + sizeT * amount) := by
  refine ⟨?_, ?_, ?_⟩
  · intro ch hc
    rw [List.mem_singleton.mp hc]
    exact chunkWF_new sizeT amount addr
  · intro ch hc
    rw [List.mem_singleton.mp hc]
    exact Nat.le_refl _
  · exact List.pairwise_singleton _ _

theorem containerWF_create {sizeT amount : Nat}
    {chunks : List EntityMemoryChunk} {fresh slot : Nat}
    {c2 : List EntityMemoryChunk} {f2 : Nat} (hz : 0 < sizeT)
    (h : ContainerWF sizeT amount chunks fresh)
    (hc : CreateEntity sizeT amount chunks fresh = some (slot, c2, f2)) :
    ContainerWF sizeT amount c2 f2 := by
  unfold CreateEntity at hc
  rcases hs : scanChunks amount chunks with _ | q
  · rw [hs] at hc
    dsimp only at hc
    rcases halloc : (newChunk sizeT amount fresh).allocator.allocate with ⟨o, a2⟩
    rw [halloc] at hc
    cases o with
    | none => simp at hc
    | some s =>
      simp only [Option.some_inj] at hc
      injection hc with hslot hcr
      injection hcr with hc2a hf2a
      have hc2 : c2 = { newChunk sizeT amount fresh with allocator := a2, entities := [s] } :: chunks := hc2a.symm
      have hf2 : f2 = fresh + sizeT * amount := hf2a.symm
      have hwfn : ChunkWF sizeT amount { newChunk sizeT amount fresh with
          allocator := a2, entities := [s] } := by
        have := chunkWF_alloc hz (chunkWF_new sizeT amount fresh) halloc
        simpa [newChunk] using this
      rw [hc2, hf2]
      refine ⟨?_, ?_, ?_⟩
      · intro c hcm
        rcases List.mem_cons.mp hcm with h1 | h1
        · rw [h1]; exact hwfn
        · exact h.chunk_wf c h1
      · intro c hcm
        rcases List.mem_cons.mp hcm with h1 | h1
        · rw [h1]
          show fresh + sizeT * amount ≤ fresh + sizeT * amount
          exact Nat.le_refl _
        · exact Nat.le_trans (h.below_fresh c h1) (Nat.le_add_right _ _)
      · rw [List.pairwise_cons]
        refine ⟨?_, h.disjoint⟩
        intro b hb
        right
        exact Nat.le_trans (h.below_fresh b hb) (Nat.le_refl _)
  · rw [hs] at hc
    dsimp only at hc
    simp only [Option.some_inj] at hc
    injection hc with hq1 hcr
    injection hcr with hq2 hf2
    obtain ⟨pre, ch, post, a2, he, hcap, halloc, he2⟩ :=
      scanChunks_some_elim (by rw [hs] : scanChunks amount chunks = some (q.1, q.2))
    rw [← hq2, he2, ← hf2]
    rw [he] at h
    exact containerWF_replace h
      (chunkWF_alloc hz (h.chunk_wf ch (List.mem_append.mpr
        (Or.inr (List.mem_cons_self _ _)))) halloc) rfl rfl

theorem containerWF_destroy {sizeT amount : Nat}
    {chunks : List EntityMemoryChunk} {fresh ptr : Nat}
    {c2 : List EntityMemoryChunk} (hz : 0 < sizeT)
    (h : ContainerWF sizeT amount chunks fresh)
    (hl : ptr ∈ liveAddrs chunks)
    (hd : DestroyEntity ptr chunks = some c2) :
    ContainerWF sizeT amount c2 fresh := by
  obtain ⟨pre, ch, post, he, hpre, hcin, he2⟩ := destroyEntity_some_elim hd
  have hmemch : ptr ∈ ch.entities := by
    unfold liveAddrs at hl
    rw [List.mem_flatten] at hl
    obtain ⟨ents, hents, hptr⟩ := hl
    obtain ⟨d, hdmem, hde⟩ := List.mem_map.mp hents
    rw [he] at hdmem
    rcases List.mem_append.mp hdmem with h1 | h1
    · exfalso
      have hwfd := h.chunk_wf d (by rw [he]; exact List.mem_append.mpr (Or.inl h1))
      have := ent_contains hz hwfd (by rw [hde]; exact hptr)
      exact hpre d h1 this
    · rcases List.mem_cons.mp h1 with h2 | h2
      · rw [← hde, h2] at hptr
        exact hptr
      · exfalso
        have hwfd := h.chunk_wf d
          (by rw [he]; exact List.mem_append.mpr (Or.inr (List.mem_cons_of_mem ch h2)))
        have hcon := ent_contains hz hwfd (by rw [hde]; exact hptr)
        have hdisj := h.disjoint
        rw [he, List.pairwise_append] at hdisj
        have hcp := hdisj.2.1
        rw [List.pairwise_cons] at hcp
        have := hcp.1 d h2
        rcases this with hcase | hcase
        · omega
        · omega
  rw [he] at h
  rw [he2]
  exact containerWF_replace h
    (chunkWF_free hz (h.chunk_wf ch (List.mem_append.mpr
      (Or.inr (List.mem_cons_self _ _)))) hmemch) rfl rfl

/-- Every reachable container state is well-formed. -/
theorem containerWF_reachable {sizeT amount : Nat}
    {s : List EntityMemoryChunk × Nat} (hz : 0 < sizeT)
    (h : ReachableContainer sizeT amount s) :
    ContainerWF sizeT amount s.1 s.2 := by
  induction h with
  | init addr => exact containerWF_init sizeT amount addr
  | create hr hc ih => exact containerWF_create hz ih hc
  | destroy hr hl hd ih => exact containerWF_destroy hz ih hl hd

/-- Within one well-formed chunk, distinct resident entities occupy disjoint
`sizeT`-byte intervals. -/
theorem chunk_entities_pairwise {sizeT amount : Nat} {ch : EntityMemoryChunk}
    (h : ChunkWF sizeT amount ch) :
    ch.entities.Pairwise (fun p q => p + sizeT ≤ q ∨ q + sizeT ≤ p) := by
  have hne : ch.entities.Pairwise (· ≠ ·) := h.ent_nodup
  refine hne.imp_of_mem ?_
  intro p q hp hq hpq
  obtain ⟨i, hi, hpi, _⟩ := h.ent_slots p hp
  obtain ⟨j, hj, hqj, _⟩ := h.ent_slots q hq
  have hij : i ≠ j := by
    intro he
    exact hpq (by rw [hpi, hqj, he])
  rcases Nat.lt_or_ge i j with hlt | hge
  · left
    rw [hpi, hqj]
    have : (i + 1) * sizeT ≤ j * sizeT := Nat.mul_le_mul_right sizeT hlt
    calc ch.chunkStart + i * sizeT + sizeT
        = ch.chunkStart + (i + 1) * sizeT := by ring
      _ ≤ ch.chunkStart + j * sizeT := by omega
  · have hlt : j < i := by omega
    right
    rw [hpi, hqj]
    have : (j + 1) * sizeT ≤ i * sizeT := Nat.mul_le_mul_right sizeT hlt
    calc ch.chunkStart + j * sizeT + sizeT
        = ch.chunkStart + (j + 1) * sizeT := by ring
      _ ≤ ch.chunkStart + i * sizeT := by omega

/-- C4 invariant, part one: in every well-formed container state the live
entities occupy pairwise disjoint `sizeT`-byte intervals. -/
theorem containerWF_no_overlap {sizeT amount : Nat}
    {chunks : List EntityMemoryChunk} {fresh : Nat}
    (h : ContainerWF sizeT amount chunks fresh) :
    (liveAddrs chunks).Pairwise (fun p q => p + sizeT ≤ q ∨ q + sizeT ≤ p) := by
  unfold liveAddrs
  rw [List.pairwise_flatten]
  constructor
  · intro l hl
    obtain ⟨d, hd, hde⟩ := List.mem_map.mp hl
    rw [← hde]
    exact chunk_entities_pairwise (h.chunk_wf d hd)
  · rw [List.pairwise_map]
    refine h.disjoint.imp_of_mem ?_
    intro a b ha hb hr x hx y hy
    obtain ⟨hxs, hxe⟩ := ent_in_range (h.chunk_wf a ha) hx
    obtain ⟨hys, hye⟩ := ent_in_range (h.chunk_wf b hb) hy
    rcases hr with hr | hr
    · left; omega
    · right; omega

/-- C4 invariant, part two: in every well-formed container state each live
entity address lies in the range of exactly one chunk. -/
theorem containerWF_unique_chunk {sizeT amount : Nat}
    {chunks : List EntityMemoryChunk} {fresh : Nat} (hz : 0 < sizeT)
    (h : ContainerWF sizeT amount chunks fresh) :
    ∀ p ∈ liveAddrs chunks,
      chunks.countP (fun ch => decide (ch.chunkStart ≤ p ∧ p < ch.chunkEnd)) = 1 := by
  intro p hp
  unfold liveAddrs at hp
  rw [List.mem_flatten] at hp
  obtain ⟨ents, hents, hpe⟩ := hp
  obtain ⟨d, hd, hde⟩ := List.mem_map.mp hents
  rw [← hde] at hpe
  clear hents hde ents
  have hwf := h.chunk_wf
  have hdisj := h.disjoint
  clear h
  induction chunks with
  | nil => simp at hd
  | cons c rest ih =>
    rw [List.countP_cons]
    rw [List.pairwise_cons] at hdisj
    rcases List.mem_cons.mp hd with h1 | h1
    · have hcon : c.chunkStart ≤ p ∧ p < c.chunkEnd := by
        rw [← h1]
        exact ent_contains hz (hwf d hd) hpe
      rw [decide_eq_true hcon]
      have hzero : rest.countP
          (fun ch => decide (ch.chunkStart ≤ p ∧ p < ch.chunkEnd)) = 0 := by
        rw [List.countP_eq_zero]
        intro b hb
        simp only [decide_eq_true_eq]
        intro hbcon
        rcases hdisj.1 b hb with hr | hr <;> omega
      rw [hzero]
      norm_num
    · have hccon : ¬ (c.chunkStart ≤ p ∧ p < c.chunkEnd) := by
        intro hc
        have hdcon := ent_contains hz (hwf d hd) hpe
        have hr := hdisj.1 d h1
        rcases hr with hr | hr
        · omega
        · omega
      rw [decide_eq_false hccon]
      have hone := ih h1 (fun ch hch => hwf ch (List.mem_cons_of_mem c hch)) hdisj.2
      rw [hone]
      norm_num

/-- C4: for every sequence of `CreateEntity` and `DestroyEntity` calls on one
entity container (with the pool allocator handing out disjoint in-range
slots, as modelled), at every reachable state no two simultaneously live
entities overlap in memory, and every live entity's address lies within the
address range `[chunkStart, chunkEnd)` of exactly one chunk owned by the
container. -/
theorem container_memory_safety (sizeT amount : Nat)
    (chunks : List EntityMemoryChunk) (fresh : Nat) (hz : 0 < sizeT)
    (h : ReachableContainer sizeT amount (chunks, fresh)) :
    (liveAddrs chunks).Pairwise (fun p q => p + sizeT ≤ q ∨ q + sizeT ≤ p) ∧
    (∀ p ∈ liveAddrs chunks,
      chunks.countP (fun ch => decide (ch.chunkStart ≤ p ∧ p < ch.chunkEnd)) = 1) := by
  have hwf := containerWF_reachable hz h
  exact ⟨containerWF_no_overlap hwf, containerWF_unique_chunk hz hwf⟩

/-- Witness for C4: after constructing a container (entity size 4, two slots
per chunk) and creating two entities, the live addresses 100 and 104 do not
overlap and each lies in exactly one chunk. -/
theorem container_memory_safety_witness :
    (0 : Nat) < 4 ∧
    ((liveAddrs [{ allocator := { firstAddress := 100, slotSize := 4, freeSlots := ([] : List Nat) }, entities := [100, 104], chunkStart := 100, chunkEnd := 108 }]).Pairwise
        (fun p q => p + 4 ≤ q ∨ q + 4 ≤ p) ∧
     (∀ p ∈ liveAddrs [{ allocator := { firstAddress := 100, slotSize := 4, freeSlots := ([] : List Nat) }, entities := [100, 104], chunkStart := 100, chunkEnd := 108 }],
        List.countP (fun ch => decide (ch.chunkStart ≤ p ∧ p < ch.chunkEnd))
          [({ allocator := { firstAddress := 100, slotSize := 4, freeSlots := ([] : List Nat) }, entities := [100, 104], chunkStart := 100, chunkEnd := 108 } : EntityMemoryChunk)] = 1)) := by
  have hreach : ReachableContainer 4 2
      ([{ allocator := { firstAddress := 100, slotSize := 4, freeSlots := ([] : List Nat) }, entities := [100, 104], chunkStart := 100, chunkEnd := 108 }], 108) := by
    have h0 : ReachableContainer 4 2 ([newChunk 4 2 100], 108) :=
      ReachableContainer.init 100
    have h1 : ReachableContainer 4 2
        ([{ allocator := { firstAddress := 100, slotSize := 4, freeSlots := [1] }, entities := [100], chunkStart := 100, chunkEnd := 108 }], 108) :=
      ReachableContainer.create h0 (by rfl)
    exact ReachableContainer.create h1 (by rfl)
  exact ⟨by decide, container_memory_safety 4 2 _ 108 (by decide) hreach⟩

/-! ## DFS analysis: paths, reachability, state bookkeeping -/

/-- Number of unvisited vertices in a DFS state. -/
def countZeros (st : List Nat) : Nat := st.count 0

/-- Directed paths in the dependency matrix: a nonempty chain of `edge`
steps, so `MPath M i j` means system `i` transitively must run after `j`. -/
inductive MPath (M : DependencyMatrix) : Nat → Nat → Prop
  | single {i j : Nat} : edge M i j = true → MPath M i j
  | cons {i j k : Nat} : edge M i j = true → MPath M j k → MPath M i k

/-- The dependency matrix has no directed cycle. -/
def Acyclic (M : DependencyMatrix) : Prop := ∀ i, ¬ MPath M i i

/-- Vertices the DFS can reach from `v`: from a vertex `u` the DFS recursion
moves to any `i` with `edge M i u` (an `i` that must run after `u`). -/
inductive TravReach (M : DependencyMatrix) : Nat → Nat → Prop
  | refl (v : Nat) : TravReach M v v
  | step {v i w : Nat} : edge M i v = true → TravReach M i w → TravReach M v w

/-- DFS state/output invariant: vertex states are 0, 1 or 2, the postorder
output has no duplicates, and a vertex is in the output exactly when its
state is 2 (done). -/
def DfsInv (st out : List Nat) : Prop :=
  (∀ w, st.getD w 1 = 0 ∨ st.getD w 1 = 1 ∨ st.getD w 1 = 2) ∧
  out.Nodup ∧
  (∀ w, st.getD w 1 = 2 ↔ w ∈ out)

/-- Topological soundness of a postorder output: whenever `i` must run after
`w` and `w` was emitted, `i` was emitted strictly before `w`. -/
def DfsTopo (M : DependencyMatrix) (out : List Nat) : Prop :=
  ∀ w ∈ out, ∀ i, edge M i w = true → i ∈ out ∧ out.indexOf i < out.indexOf w

theorem mPath_trans {M : DependencyMatrix} {a b c : Nat}
    (h1 : MPath M a b) (h2 : MPath M b c) : MPath M a c := by
  induction h1 with
  | single he => exact MPath.cons he h2
  | cons he _ ih => exact MPath.cons he (ih h2)

theorem travReach_trans {M : DependencyMatrix} {a b c : Nat}
    (h1 : TravReach M a b) (h2 : TravReach M b c) : TravReach M a c := by
  induction h1 with
  | refl => exact h2
  | step he _ ih => exact TravReach.step he (ih h2)

theorem edge_lt_left {M : DependencyMatrix} {i j : Nat}
    (h : edge M i j = true) : i < M.length := by
  by_contra hge
  rw [edge, List.getD_eq_default _ _ (Nat.le_of_not_lt hge)] at h
  simp at h

theorem edge_lt_right {M : DependencyMatrix} {i j : Nat}
    (hsq : SquareMatrix M) (h : edge M i j = true) : j < M.length := by
  have hi : i < M.length := edge_lt_left h
  have hrow : M.getD i [] ∈ M := by
    rw [List.getD_eq_getElem?_getD, List.getElem?_eq_getElem hi]
    exact List.getElem_mem hi
  rw [← hsq (M.getD i []) hrow]
  by_contra hge
  rw [edge, List.getD_eq_default _ _ (Nat.le_of_not_lt hge)] at h
  simp at h

theorem getD_set_self_st {st : List Nat} {v x d : Nat} (h : v < st.length) :
    (st.set v x).getD v d = x := by
  rw [List.getD_eq_getElem?_getD, List.getElem?_set_self h]
  rfl

theorem getD_set_ne_st {st : List Nat} (v w x d : Nat) (h : w ≠ v) :
    (st.set v x).getD w d = st.getD w d := by
  rw [List.getD_eq_getElem?_getD, List.getElem?_set_ne (Ne.symm h),
    ← List.getD_eq_getElem?_getD]

theorem ne_default_lt_length {st : List Nat} {v d : Nat}
    (h : st.getD v d ≠ d) : v < st.length := by
  by_contra hge
  rw [List.getD_eq_default _ _ (Nat.le_of_not_lt hge)] at h
  exact h rfl

theorem white_lt_length {st : List Nat} {v : Nat} (h : st.getD v 1 = 0) :
    v < st.length :=
  ne_default_lt_length (by rw [h]; decide)

theorem countZeros_pos {st : List Nat} {v : Nat} (h : st.getD v 1 = 0) :
    0 < countZeros st := by
  have hv := white_lt_length h
  have hmem : (0 : Nat) ∈ st := by
    rw [List.getD_eq_getElem?_getD, List.getElem?_eq_getElem hv] at h
    have : st[v] = 0 := h
    rw [← this]
    exact List.getElem_mem hv
  exact List.count_pos_iff.mpr hmem

theorem countZeros_set_one {st : List Nat} {v : Nat} (h : st.getD v 1 = 0) :
    countZeros (st.set v 1) + 1 = countZeros st := by
  induction st generalizing v with
  | nil => exact absurd (white_lt_length h) (by simp)
  | cons x xs ih =>
    cases v with
    | zero =>
      have hx : x = 0 := h
      rw [hx]
      simp [countZeros, List.count_cons]
    | succ w =>
      have hw : xs.getD w 1 = 0 := h
      have := ih hw
      show countZeros (x :: xs.set w 1) + 1 = countZeros (x :: xs)
      simp only [countZeros, List.count_cons] at *
      omega

theorem countZeros_le_of_pointwise : ∀ {st2 st : List Nat},
    st2.length = st.length →
    (∀ k, st2.getD k 1 = 0 → st.getD k 1 = 0) →
    countZeros st2 ≤ countZeros st := by
  intro st2
  induction st2 with
  | nil => intro st _ _; simp [countZeros]
  | cons x xs ih =>
    intro st hlen hpt
    cases st with
    | nil => simp at hlen
    | cons y ys =>
      have hlen2 : xs.length = ys.length := by simpa using hlen
      have hpt2 : ∀ k, xs.getD k 1 = 0 → ys.getD k 1 = 0 := by
        intro k hk
        exact hpt (k+1) hk
      have hih := ih hlen2 hpt2
      simp only [countZeros, List.count_cons] at hih ⊢
      by_cases hx : x = 0
      · have hy : y = 0 := hpt 0 hx
        simp [hx, hy]
        omega
      · have : ¬ ((x == 0) = true) := by simpa using hx
        simp [this]
        split <;> omega

theorem indexOf_append_left_nat {l : List Nat} (t : List Nat) {a : Nat}
    (h : a ∈ l) : (l ++ t).indexOf a = l.indexOf a := by
  induction l with
  | nil => simp at h
  | cons x xs ih =>
    by_cases hx : x = a
    · simp [List.indexOf_cons, hx]
    · have hmem : a ∈ xs := by
        rcases List.mem_cons.mp h with h1 | h1
        · exact absurd h1.symm hx
        · exact h1
      have hbeq : (x == a) = false := by simpa using hx
      simp [List.indexOf_cons, hbeq, ih hmem]

theorem indexOf_append_self_nat {l : List Nat} {v : Nat} (h : v ∉ l) :
    (l ++ [v]).indexOf v = l.length := by
  induction l with
  | nil => simp
  | cons x xs ih =>
    have hx : x ≠ v := fun he => h (he ▸ List.mem_cons_self x xs)
    have hbeq : (x == v) = false := by simpa using hx
    have hnm : v ∉ xs := fun hm => h (List.mem_cons_of_mem x hm)
    simp [List.indexOf_cons, hbeq, ih hnm]

/-! ## What one DFS call guarantees

`VisitPost M fuel v st out st2 out2` collects every fact about a call
`dfsVisit M fuel v st out = (st2, out2)` the later proofs need; `LoopPost` is
the analogue for the predecessor loop `dfsLoop` run for owner vertex `v`. -/

structure VisitPost (M : DependencyMatrix) (fuel v : Nat)
    (st out st2 out2 : List Nat) : Prop where
  len : st2.length = st.length
  keep : ∀ g, st.getD g 1 ≠ 0 → st2.getD g 1 = st.getD g 1
  nogray : ∀ g, st.getD g 1 = 0 → st2.getD g 1 = 0 ∨ st2.getD g 1 = 2
  delta : ∃ d, out2 = out ++ d ∧ ∀ w ∈ d, st.getD w 1 = 0 ∧ TravReach M v w
  compl : countZeros st ≤ fuel → st.getD v 1 = 0 → st2.getD v 1 = 2
  inv : M.length ≤ st.length → DfsInv st out → DfsInv st2 out2
  topo : M.length ≤ st.length → DfsInv st out → countZeros st ≤ fuel →
    Acyclic M → (∀ g, g < st.length → st.getD g 1 = 1 → MPath M v g) →
    DfsTopo M out → DfsTopo M out2

structure LoopPost (M : DependencyMatrix) (fuel v : Nat) (is : List Nat)
    (st out st2 out2 : List Nat) : Prop where
  len : st2.length = st.length
  keep : ∀ g, st.getD g 1 ≠ 0 → st2.getD g 1 = st.getD g 1
  nogray : ∀ g, st.getD g 1 = 0 → st2.getD g 1 = 0 ∨ st2.getD g 1 = 2
  delta : ∃ d, out2 = out ++ d ∧ ∀ w ∈ d, st.getD w 1 = 0 ∧ TravReach M v w
  compl : countZeros st ≤ fuel → ∀ i ∈ is, edge M i v = true → st2.getD i 1 ≠ 0
  inv : M.length ≤ st.length → DfsInv st out → DfsInv st2 out2
  topo : M.length ≤ st.length → DfsInv st out → countZeros st ≤ fuel →
    Acyclic M → (∀ g, g < st.length → st.getD g 1 = 1 → g = v ∨ MPath M v g) →
    DfsTopo M out → DfsTopo M out2

theorem visitPost_czle {M : DependencyMatrix} {fuel v : Nat}
    {st out st2 out2 : List Nat} (h : VisitPost M fuel v st out st2 out2) :
    countZeros st2 ≤ countZeros st := by
  refine countZeros_le_of_pointwise h.len ?_
  intro k hk
  by_contra hne
  rw [h.keep k hne] at hk
  exact hne hk

theorem loopPost_czle {M : DependencyMatrix} {fuel v : Nat} {is : List Nat}
    {st out st2 out2 : List Nat} (h : LoopPost M fuel v is st out st2 out2) :
    countZeros st2 ≤ countZeros st := by
  refine countZeros_le_of_pointwise h.len ?_
  intro k hk
  by_contra hne
  rw [h.keep k hne] at hk
  exact hne hk

/-- The do-nothing `VisitPost` (fuel exhausted, or the vertex was already
visited). -/
theorem visitPost_refl (M : DependencyMatrix) (fuel v : Nat)
    (st out : List Nat)
    (hc : countZeros st ≤ fuel → st.getD v 1 = 0 → st.getD v 1 = 2) :
    VisitPost M fuel v st out st out := by
  refine ⟨rfl, fun g _ => rfl, fun g hg => Or.inl hg, ⟨[], by simp, by simp⟩,
    hc, fun _ h => h, fun _ _ _ _ _ h => h⟩

/-- One loop step: a recursive visit of predecessor `i` followed by the rest
of the loop. -/
theorem loopPost_step {M : DependencyMatrix} {fuel v i : Nat} {rest : List Nat}
    {st out stm outm st2 out2 : List Nat}
    (he : edge M i v = true)
    (hp : VisitPost M fuel i st out stm outm)
    (hr : LoopPost M fuel v rest stm outm st2 out2) :
    LoopPost M fuel v (i :: rest) st out st2 out2 := by
  refine ⟨hr.len.trans hp.len, ?_, ?_, ?_, ?_, ?_, ?_⟩
  · intro g hg
    have h1 := hp.keep g hg
    have h2 := hr.keep g (by rw [h1]; exact hg)
    rw [h2, h1]
  · intro g hg
    rcases hp.nogray g hg with h1 | h1
    · exact hr.nogray g h1
    · right
      rw [hr.keep g (by rw [h1]; simp), h1]
  · obtain ⟨d1, ho1, hd1⟩ := hp.delta
    obtain ⟨d2, ho2, hd2⟩ := hr.delta
    refine ⟨d1 ++ d2, by rw [ho2, ho1, List.append_assoc], ?_⟩
    intro w hw
    rcases List.mem_append.mp hw with hw | hw
    · exact ⟨(hd1 w hw).1, TravReach.step he (hd1 w hw).2⟩
    · have hwm := hd2 w hw
      constructor
      · by_contra hne
        rw [hp.keep w hne] at hwm
        exact hne hwm.1
      · exact hwm.2
  · intro hfz k hk hek
    rcases List.mem_cons.mp hk with hk | hk
    · subst hk
      by_cases h0 : st.getD k 1 = 0
      · have h2 := hp.compl hfz h0
        rw [hr.keep k (by rw [h2]; simp), h2]
        simp
      · have h1 := hp.keep k h0
        rw [hr.keep k (by rw [h1]; exact h0), h1]
        exact h0
    · exact hr.compl (Nat.le_trans (visitPost_czle hp) hfz) k hk hek
  · intro hlen hinv
    exact hr.inv (by rw [hp.len]; exact hlen) (hp.inv hlen hinv)
  · intro hlen hinv hfz hacyc hchain htopo
    have hchain1 : ∀ g, g < st.length → st.getD g 1 = 1 → MPath M i g := by
      intro g hg h1
      rcases hchain g hg h1 with h2 | h2
      · rw [h2]; exact MPath.single he
      · exact MPath.cons he h2
    have htopom := hp.topo hlen hinv hfz hacyc hchain1 htopo
    refine hr.topo (by rw [hp.len]; exact hlen) (hp.inv hlen hinv)
      (Nat.le_trans (visitPost_czle hp) hfz) hacyc ?_ htopom
    intro g hg h1
    have hgst : st.getD g 1 = 1 := by
      by_cases h0 : st.getD g 1 = 0
      · rcases hp.nogray g h0 with h2 | h2
        · rw [h2] at h1; exact absurd h1 (by decide)
        · rw [h2] at h1; exact absurd h1 (by decide)
      · rw [← hp.keep g h0]; exact h1
    exact hchain g (by rw [← hp.len]; exact hg) hgst

/-- One loop step over a non-edge: nothing happens for `i`. -/
theorem loopPost_skip {M : DependencyMatrix} {fuel v i : Nat} {rest : List Nat}
    {st out st2 out2 : List Nat}
    (he : ¬ edge M i v = true)
    (hr : LoopPost M fuel v rest st out st2 out2) :
    LoopPost M fuel v (i :: rest) st out st2 out2 := by
  refine ⟨hr.len, hr.keep, hr.nogray, hr.delta, ?_, hr.inv, hr.topo⟩
  intro hfz k hk hek
  rcases List.mem_cons.mp hk with hk | hk
  · subst hk; exact absurd hek he
  · exact hr.compl hfz k hk hek

/-- The loop lemma, given the visit lemma at the same fuel. -/
theorem loopPost_of_visit (M : DependencyMatrix) (fuel : Nat)
    (hvisit : ∀ v st out, VisitPost M fuel v st out
      (dfsVisit M fuel v st out).1 (dfsVisit M fuel v st out).2) :
    ∀ v (is : List Nat) (st out : List Nat), LoopPost M fuel v is st out
      (dfsLoop M fuel v is st out).1 (dfsLoop M fuel v is st out).2 := by
  intro v is
  induction is with
  | nil =>
    intro st out
    have he : dfsLoop M fuel v [] st out = (st, out) := by rw [dfsLoop]
    rw [he]
    refine ⟨rfl, fun g _ => rfl, fun g hg => Or.inl hg, ⟨[], by simp, by simp⟩,
      ?_, fun _ h => h, fun _ _ _ _ _ h => h⟩
    intro _ k hk
    simp at hk
  | cons i rest ih =>
    intro st out
    have he : dfsLoop M fuel v (i :: rest) st out =
        if edge M i v = true then
          dfsLoop M fuel v rest (dfsVisit M fuel i st out).1
            (dfsVisit M fuel i st out).2
        else dfsLoop M fuel v rest st out := by
      rw [dfsLoop]
    by_cases hedge : edge M i v = true
    · rw [he, if_pos hedge]
      exact loopPost_step hedge (hvisit i st out)
        (ih (dfsVisit M fuel i st out).1 (dfsVisit M fuel i st out).2)
    · rw [he, if_neg hedge]
      exact loopPost_skip hedge (ih st out)

/-- The visit of an unvisited vertex: mark it visited, run the predecessor
loop, mark it done and emit it. -/
theorem visitPost_mark {M : DependencyMatrix} {fuel v : Nat}
    {st out stm outm : List Nat}
    (hv : st.getD v 1 = 0)
    (hl : LoopPost M fuel v (List.range st.length) (st.set v 1) out stm outm) :
    VisitPost M (fuel+1) v st out (stm.set v 2) (outm ++ [v]) := by
  have hvl : v < st.length := white_lt_length hv
  have hlen1 : (st.set v 1).length = st.length := List.length_set st v 1
  have hstm_len : stm.length = st.length := hl.len.trans hlen1
  have hvlm : v < stm.length := by rw [hstm_len]; exact hvl
  have hst1v : (st.set v 1).getD v 1 = 1 := getD_set_self_st hvl
  have hstmv : stm.getD v 1 = 1 := by
    rw [hl.keep v (by rw [hst1v]; simp), hst1v]
  refine ⟨?_, ?_, ?_, ?_, ?_, ?_, ?_⟩
  · rw [List.length_set, hstm_len]
  · intro g hg
    have hgv : g ≠ v := fun he => hg (he ▸ hv)
    rw [getD_set_ne_st v g 2 1 hgv,
      hl.keep g (by rw [getD_set_ne_st v g 1 1 hgv]; exact hg),
      getD_set_ne_st v g 1 1 hgv]
  · intro g hg
    by_cases hgv : g = v
    · subst hgv
      right
      exact getD_set_self_st hvlm
    · rw [getD_set_ne_st v g 2 1 hgv]
      rcases hl.nogray g (by rw [getD_set_ne_st v g 1 1 hgv]; exact hg) with h1 | h1
      · exact Or.inl h1
      · exact Or.inr h1
  · obtain ⟨d, ho, hd⟩ := hl.delta
    refine ⟨d ++ [v], by rw [ho, List.append_assoc], ?_⟩
    intro w hw
    rcases List.mem_append.mp hw with hw | hw
    · obtain ⟨hw0, hwt⟩ := hd w hw
      have hwv : w ≠ v := fun he => by rw [he, hst1v] at hw0; exact absurd hw0 (by decide)
      rw [getD_set_ne_st v w 1 1 hwv] at hw0
      exact ⟨hw0, hwt⟩
    · have hwv : w = v := by simpa using hw
      subst hwv
      exact ⟨hv, TravReach.refl w⟩
  · intro _ _
    exact getD_set_self_st hvlm
  · intro hlen hinv
    have hinv1 : DfsInv (st.set v 1) out := by
      refine ⟨?_, hinv.2.1, ?_⟩
      · intro w
        by_cases hwv : w = v
        · subst hwv
          rw [getD_set_self_st hvl]
          simp
        · rw [getD_set_ne_st v w 1 1 hwv]
          exact hinv.1 w
      · intro w
        by_cases hwv : w = v
        · subst hwv
          rw [getD_set_self_st hvl]
          constructor
          · intro h; exact absurd h (by decide)
          · intro hmem
            have := (hinv.2.2 w).mpr hmem
            rw [hv] at this
            exact absurd this (by decide)
        · rw [getD_set_ne_st v w 1 1 hwv]
          exact hinv.2.2 w
    have hinvm := hl.inv (by rw [hlen1]; exact hlen) hinv1
    have hvnotin : v ∉ outm := by
      intro hmem
      have := (hinvm.2.2 v).mpr hmem
      rw [hstmv] at this
      exact absurd this (by decide)
    refine ⟨?_, ?_, ?_⟩
    · intro w
      by_cases hwv : w = v
      · subst hwv
        rw [getD_set_self_st hvlm]
        simp
      · rw [getD_set_ne_st v w 2 1 hwv]
        exact hinvm.1 w
    · simp [List.nodup_append, hinvm.2.1, hvnotin]
    · intro w
      by_cases hwv : w = v
      · subst hwv
        rw [getD_set_self_st hvlm]
        simp
      · rw [getD_set_ne_st v w 2 1 hwv, List.mem_append]
        have : w ∈ [v] ↔ False := by simp [hwv]
        rw [this]
        simp only [or_false]
        exact hinvm.2.2 w
  · intro hlen hinv hfz hacyc hchain htopo
    have hcz1 : countZeros (st.set v 1) ≤ fuel := by
      have := countZeros_set_one hv
      omega
    have hinv1 : DfsInv (st.set v 1) out := by
      refine ⟨?_, hinv.2.1, ?_⟩
      · intro w
        by_cases hwv : w = v
        · subst hwv
          rw [getD_set_self_st hvl]
          simp
        · rw [getD_set_ne_st v w 1 1 hwv]
          exact hinv.1 w
      · intro w
        by_cases hwv : w = v
        · subst hwv
          rw [getD_set_self_st hvl]
          constructor
          · intro h; exact absurd h (by decide)
          · intro hmem
            have := (hinv.2.2 w).mpr hmem
            rw [hv] at this
            exact absurd this (by decide)
        · rw [getD_set_ne_st v w 1 1 hwv]
          exact hinv.2.2 w
    have hchain1 : ∀ g, g < (st.set v 1).length → (st.set v 1).getD g 1 = 1 →
        g = v ∨ MPath M v g := by
      intro g hg h1
      by_cases hgv : g = v
      · exact Or.inl hgv
      · rw [getD_set_ne_st v g 1 1 hgv] at h1
        exact Or.inr (hchain g (by rw [← hlen1]; exact hg) h1)
    have htopom := hl.topo (by rw [hlen1]; exact hlen) hinv1 hcz1 hacyc
      hchain1 htopo
    have hinvm := hl.inv (by rw [hlen1]; exact hlen) hinv1
    have hvnotin : v ∉ outm := by
      intro hmem
      have := (hinvm.2.2 v).mpr hmem
      rw [hstmv] at this
      exact absurd this (by decide)
    intro w hw i hei
    rcases List.mem_append.mp hw with hw | hw
    · obtain ⟨hi_in, hlt⟩ := htopom w hw i hei
      refine ⟨List.mem_append.mpr (Or.inl hi_in), ?_⟩
      rw [indexOf_append_left_nat [v] hi_in, indexOf_append_left_nat [v] hw]
      exact hlt
    · have hwv : w = v := by simpa using hw
      rw [hwv] at hei ⊢
      have hil : i < st.length := Nat.lt_of_lt_of_le (edge_lt_left hei) hlen
      have hinz : stm.getD i 1 ≠ 0 :=
        hl.compl hcz1 i (List.mem_range.mpr hil) hei
      rcases hinvm.1 i with h0 | h1 | h2
      · exact absurd h0 hinz
      · exfalso
        have hst1i : (st.set v 1).getD i 1 = 1 := by
          by_cases h0 : (st.set v 1).getD i 1 = 0
          · rcases hl.nogray i h0 with hh | hh
            · rw [hh] at h1; exact absurd h1 (by decide)
            · rw [hh] at h1; exact absurd h1 (by decide)
          · rw [← hl.keep i h0]; exact h1
        rcases hchain1 i (by rw [hlen1]; exact hil) hst1i with hiv | hpath
        · rw [hiv] at hei
          exact hacyc v (MPath.single hei)
        · exact hacyc v (mPath_trans hpath (MPath.single hei))
      · have hi_in : i ∈ outm := (hinvm.2.2 i).mp h2
        refine ⟨List.mem_append.mpr (Or.inl hi_in), ?_⟩
        rw [indexOf_append_left_nat [v] hi_in, indexOf_append_self_nat hvnotin]
        exact List.indexOf_lt_length.mpr hi_in

/-- `dfsVisit` satisfies `VisitPost` and `dfsLoop` satisfies `LoopPost`, for
every fuel. -/
theorem dfs_post (M : DependencyMatrix) : ∀ fuel : Nat,
    (∀ v st out, VisitPost M fuel v st out
      (dfsVisit M fuel v st out).1 (dfsVisit M fuel v st out).2) ∧
    (∀ v (is : List Nat) (st out : List Nat), LoopPost M fuel v is st out
      (dfsLoop M fuel v is st out).1 (dfsLoop M fuel v is st out).2) := by
  intro fuel
  induction fuel with
  | zero =>
    have hv : ∀ v st out, VisitPost M 0 v st out
        (dfsVisit M 0 v st out).1 (dfsVisit M 0 v st out).2 := by
      intro v st out
      have he : dfsVisit M 0 v st out = (st, out) := by rw [dfsVisit]
      rw [he]
      refine visitPost_refl M 0 v st out ?_
      intro hfz h0
      have := countZeros_pos h0
      omega
    exact ⟨hv, loopPost_of_visit M 0 hv⟩
  | succ f ih =>
    have hv : ∀ v st out, VisitPost M (f+1) v st out
        (dfsVisit M (f+1) v st out).1 (dfsVisit M (f+1) v st out).2 := by
      intro v st out
      have he : dfsVisit M (f+1) v st out =
          if st.getD v 1 = 0 then
            ((dfsLoop M f v (List.range st.length) (st.set v 1) out).1.set v 2,
             (dfsLoop M f v (List.range st.length) (st.set v 1) out).2 ++ [v])
          else (st, out) := by
        rw [dfsVisit]
      by_cases h0 : st.getD v 1 = 0
      · rw [he, if_pos h0]
        exact visitPost_mark h0
          (ih.2 v (List.range st.length) (st.set v 1) out)
      · rw [he, if_neg h0]
        exact visitPost_refl M (f+1) v st out (fun _ hw => absurd hw h0)
    exact ⟨hv, loopPost_of_visit M (f+1) hv⟩

/-- The DFS output parameter is a pure accumulator: the final state does not
depend on it and the emitted suffix is independent of it. -/
theorem dfs_out_accum (M : DependencyMatrix) : ∀ fuel : Nat,
    (∀ v st out, (dfsVisit M fuel v st out).1 = (dfsVisit M fuel v st []).1 ∧
      (dfsVisit M fuel v st out).2 = out ++ (dfsVisit M fuel v st []).2) ∧
    (∀ v (is : List Nat) (st out : List Nat),
      (dfsLoop M fuel v is st out).1 = (dfsLoop M fuel v is st []).1 ∧
      (dfsLoop M fuel v is st out).2 = out ++ (dfsLoop M fuel v is st []).2) := by
  intro fuel
  induction fuel with
  | zero =>
    have hv : ∀ v st out, (dfsVisit M 0 v st out).1 = (dfsVisit M 0 v st []).1 ∧
        (dfsVisit M 0 v st out).2 = out ++ (dfsVisit M 0 v st []).2 := by
      intro v st out
      have h1 : dfsVisit M 0 v st out = (st, out) := by rw [dfsVisit]
      have h2 : dfsVisit M 0 v st [] = (st, []) := by rw [dfsVisit]
      rw [h1, h2]
      simp
    refine ⟨hv, ?_⟩
    intro v is
    induction is with
    | nil =>
      intro st out
      have h1 : dfsLoop M 0 v [] st out = (st, out) := by rw [dfsLoop]
      have h2 : dfsLoop M 0 v [] st [] = (st, []) := by rw [dfsLoop]
      rw [h1, h2]
      simp
    | cons i rest ih =>
      intro st out
      have h1 : dfsLoop M 0 v (i :: rest) st out =
          if edge M i v = true then
            dfsLoop M 0 v rest (dfsVisit M 0 i st out).1 (dfsVisit M 0 i st out).2
          else dfsLoop M 0 v rest st out := by rw [dfsLoop]
      have h2 : dfsLoop M 0 v (i :: rest) st [] =
          if edge M i v = true then
            dfsLoop M 0 v rest (dfsVisit M 0 i st []).1 (dfsVisit M 0 i st []).2
          else dfsLoop M 0 v rest st [] := by rw [dfsLoop]
      rw [h1, h2]
      by_cases hedge : edge M i v = true
      · rw [if_pos hedge, if_pos hedge]
        obtain ⟨hs, ho⟩ := hv i st out
        rw [hs, ho]
        obtain ⟨hs2, ho2⟩ := ih (dfsVisit M 0 i st []).1
          ((dfsVisit M 0 i st []).2)
        obtain ⟨hs3, ho3⟩ := ih (dfsVisit M 0 i st []).1
          (out ++ (dfsVisit M 0 i st []).2)
        refine ⟨hs3.trans hs2.symm, ?_⟩
        rw [ho3, ho2, List.append_assoc]
      · rw [if_neg hedge, if_neg hedge]
        exact ih st out
  | succ f ihf =>
    have hv : ∀ v st out, (dfsVisit M (f+1) v st out).1 = (dfsVisit M (f+1) v st []).1 ∧
        (dfsVisit M (f+1) v st out).2 = out ++ (dfsVisit M (f+1) v st []).2 := by
      intro v st out
      have h1 : dfsVisit M (f+1) v st out =
          if st.getD v 1 = 0 then
            ((dfsLoop M f v (List.range st.length) (st.set v 1) out).1.set v 2,
             (dfsLoop M f v (List.range st.length) (st.set v 1) out).2 ++ [v])
          else (st, out) := by rw [dfsVisit]
      have h2 : dfsVisit M (f+1) v st [] =
          if st.getD v 1 = 0 then
            ((dfsLoop M f v (List.range st.length) (st.set v 1) []).1.set v 2,
             (dfsLoop M f v (List.range st.length) (st.set v 1) []).2 ++ [v])
          else (st, []) := by rw [dfsVisit]
      rw [h1, h2]
      by_cases h0 : st.getD v 1 = 0
      · rw [if_pos h0, if_pos h0]
        obtain ⟨hs, ho⟩ := ihf.2 v (List.range st.length) (st.set v 1) out
        refine ⟨by rw [hs], ?_⟩
        show (dfsLoop M f v (List.range st.length) (st.set v 1) out).2 ++ [v]
          = out ++ ((dfsLoop M f v (List.range st.length) (st.set v 1) []).2 ++ [v])
        rw [ho, List.append_assoc]
      · rw [if_neg h0, if_neg h0]
        simp
    refine ⟨hv, ?_⟩
    intro v is
    induction is with
    | nil =>
      intro st out
      have h1 : dfsLoop M (f+1) v [] st out = (st, out) := by rw [dfsLoop]
      have h2 : dfsLoop M (f+1) v [] st [] = (st, []) := by rw [dfsLoop]
      rw [h1, h2]
      simp
    | cons i rest ih =>
      intro st out
      have h1 : dfsLoop M (f+1) v (i :: rest) st out =
          if edge M i v = true then
            dfsLoop M (f+1) v rest (dfsVisit M (f+1) i st out).1
              (dfsVisit M (f+1) i st out).2
          else dfsLoop M (f+1) v rest st out := by rw [dfsLoop]
      have h2 : dfsLoop M (f+1) v (i :: rest) st [] =
          if edge M i v = true then
            dfsLoop M (f+1) v rest (dfsVisit M (f+1) i st []).1
              (dfsVisit M (f+1) i st []).2
          else dfsLoop M (f+1) v rest st [] := by rw [dfsLoop]
      rw [h1, h2]
      by_cases hedge : edge M i v = true
      · rw [if_pos hedge, if_pos hedge]
        obtain ⟨hs, ho⟩ := hv i st out
        rw [hs, ho]
        obtain ⟨hs2, ho2⟩ := ih (dfsVisit M (f+1) i st []).1
          ((dfsVisit M (f+1) i st []).2)
        obtain ⟨hs3, ho3⟩ := ih (dfsVisit M (f+1) i st []).1
          (out ++ (dfsVisit M (f+1) i st []).2)
        refine ⟨hs3.trans hs2.symm, ?_⟩
        rw [ho3, ho2, List.append_assoc]
      · rw [if_neg hedge, if_neg hedge]
        exact ih st out

/-! ## The per-group DFS pass -/

/-- What one `groupFold` pass (the loop of SystemManager.cpp lines 150-154)
guarantees. -/
structure FoldPost (M : DependencyMatrix) (g : List Nat)
    (st out st2 out2 : List Nat) : Prop where
  len : st2.length = st.length
  keep : ∀ w, st.getD w 1 ≠ 0 → st2.getD w 1 = st.getD w 1
  nogray : ∀ w, st.getD w 1 = 0 → st2.getD w 1 = 0 ∨ st2.getD w 1 = 2
  delta : ∃ d, out2 = out ++ d ∧
    ∀ w ∈ d, st.getD w 1 = 0 ∧ ∃ v ∈ g, TravReach M v w
  compl : ∀ v ∈ g, st2.getD v 1 ≠ 0
  inv : M.length ≤ st.length → DfsInv st out → DfsInv st2 out2
  topo : M.length ≤ st.length → DfsInv st out → Acyclic M →
    (∀ w, w < st.length → st.getD w 1 ≠ 1) → DfsTopo M out → DfsTopo M out2

theorem groupFold_post (M : DependencyMatrix) :
    ∀ (g : List Nat) (st out : List Nat),
      FoldPost M g st out (groupFold M g st out).1 (groupFold M g st out).2 := by
  intro g
  induction g with
  | nil =>
    intro st out
    refine ⟨rfl, fun w _ => rfl, fun w hw => Or.inl hw,
      ⟨[], by simp [groupFold], by simp⟩,
      ?_, fun _ h => h, fun _ _ _ _ h => h⟩
    intro u hu
    simp at hu
  | cons v rest ih =>
    intro st out
    have hstep : groupFold M (v :: rest) st out
        = groupFold M rest (dfsVisit M st.length v st out).1
            (dfsVisit M st.length v st out).2 := rfl
    rw [hstep]
    have hp := (dfs_post M st.length).1 v st out
    have hr := ih (dfsVisit M st.length v st out).1
      (dfsVisit M st.length v st out).2
    have hfuel : countZeros st ≤ st.length := List.count_le_length 0 st
    refine ⟨hr.len.trans hp.len, ?_, ?_, ?_, ?_, ?_, ?_⟩
    · intro w hw
      have h1 := hp.keep w hw
      have h2 := hr.keep w (by rw [h1]; exact hw)
      rw [h2, h1]
    · intro w hw
      rcases hp.nogray w hw with h1 | h1
      · exact hr.nogray w h1
      · right
        rw [hr.keep w (by rw [h1]; simp), h1]
    · obtain ⟨d1, ho1, hd1⟩ := hp.delta
      obtain ⟨d2, ho2, hd2⟩ := hr.delta
      refine ⟨d1 ++ d2, by rw [ho2, ho1, List.append_assoc], ?_⟩
      intro w hw
      rcases List.mem_append.mp hw with hw | hw
      · exact ⟨(hd1 w hw).1,
          ⟨v, List.mem_cons_self v rest, (hd1 w hw).2⟩⟩
      · obtain ⟨hw0, u, hu, ht⟩ := hd2 w hw
        constructor
        · by_contra hne
          rw [hp.keep w hne] at hw0
          exact hne hw0
        · exact ⟨u, List.mem_cons_of_mem v hu, ht⟩
    · intro u hu
      rcases List.mem_cons.mp hu with hu | hu
      · subst hu
        by_cases h0 : st.getD u 1 = 0
        · have h2 := hp.compl hfuel h0
          rw [hr.keep u (by rw [h2]; simp), h2]
          simp
        · have h1 := hp.keep u h0
          rw [hr.keep u (by rw [h1]; exact h0), h1]
          exact h0
      · exact hr.compl u hu
    · intro hlen hinv
      exact hr.inv (by rw [hp.len]; exact hlen) (hp.inv hlen hinv)
    · intro hlen hinv hacyc hng htopo
      have hchain : ∀ g2, g2 < st.length → st.getD g2 1 = 1 → MPath M v g2 := by
        intro g2 hg2 h1
        exact absurd h1 (hng g2 hg2)
      have htopom := hp.topo hlen hinv hfuel hacyc hchain htopo
      refine hr.topo (by rw [hp.len]; exact hlen) (hp.inv hlen hinv) hacyc
        ?_ htopom
      intro w hw
      rw [hp.len] at hw
      by_cases h0 : st.getD w 1 = 0
      · rcases hp.nogray w h0 with h1 | h1 <;> rw [h1] <;> decide
      · rw [hp.keep w h0]
        exact hng w hw

theorem groupFold_out_accum (M : DependencyMatrix) :
    ∀ (g : List Nat) (st out : List Nat),
      (groupFold M g st out).1 = (groupFold M g st []).1 ∧
      (groupFold M g st out).2 = out ++ (groupFold M g st []).2 := by
  intro g
  induction g with
  | nil => intro st out; simp [groupFold]
  | cons v rest ih =>
    intro st out
    have hstep : ∀ o, groupFold M (v :: rest) st o
        = groupFold M rest (dfsVisit M st.length v st o).1
            (dfsVisit M st.length v st o).2 := fun o => rfl
    rw [hstep out, hstep []]
    obtain ⟨hs, ho⟩ := (dfs_out_accum M st.length).1 v st out
    rw [hs, ho]
    obtain ⟨hs2, ho2⟩ := ih (dfsVisit M st.length v st []).1
      ((dfsVisit M st.length v st []).2)
    obtain ⟨hs3, ho3⟩ := ih (dfsVisit M st.length v st []).1
      (out ++ (dfsVisit M st.length v st []).2)
    refine ⟨hs3.trans hs2.symm, ?_⟩
    rw [ho3, ho2, List.append_assoc]

/-- The vertex-state list threaded through the per-group DFS passes. -/
def groupStates (M : DependencyMatrix) : List (List Nat) → List Nat → List Nat
  | [], st => st
  | g :: gs, st => groupStates M gs (groupFold M g st []).1

/-- The postorder segments the per-group DFS passes emit, in group order. -/
def groupSegs (M : DependencyMatrix) :
    List (List Nat) → List Nat → List (List Nat)
  | [], _ => []
  | g :: gs, st => (groupFold M g st []).2 :: groupSegs M gs (groupFold M g st []).1

theorem groupOrdersAux_eq_segs (M : DependencyMatrix) :
    ∀ (gs : List (List Nat)) (st : List Nat),
      groupOrdersAux M gs st = (groupSegs M gs st).map List.reverse := by
  intro gs
  induction gs with
  | nil => intro st; rfl
  | cons g gs ih =>
    intro st
    show (groupFold M g st []).2.reverse :: groupOrdersAux M gs (groupFold M g st []).1
      = (groupFold M g st []).2.reverse :: (groupSegs M gs (groupFold M g st []).1).map List.reverse
    rw [ih]

/-- A group closed under incoming `edge`s absorbs everything the DFS can
reach from its members. -/
theorem travReach_closed {M : DependencyMatrix} {g : List Nat} {v w : Nat}
    (hcl : ∀ u ∈ g, ∀ i, edge M i u = true → i ∈ g)
    (hv : v ∈ g) (ht : TravReach M v w) : w ∈ g := by
  induction ht with
  | refl => exact hv
  | step he _ ih => exact ih (hcl _ hv _ he)

/-- Running the per-group DFS passes over a list of pairwise-disjoint,
edge-closed groups whose members are unvisited: states stay gray-free, the
invariant is maintained, every member ends non-white, each emitted segment
contains exactly its group's members, and (for acyclic matrices) the
cumulative output stays topologically sound. -/
theorem groupSeq (M : DependencyMatrix) :
    ∀ (gs : List (List Nat)) (st OUT : List Nat),
      M.length ≤ st.length →
      DfsInv st OUT →
      (∀ w, w < st.length → st.getD w 1 ≠ 1) →
      (∀ g ∈ gs, ∀ v ∈ g, st.getD v 1 = 0) →
      (∀ g ∈ gs, ∀ v ∈ g, ∀ i, edge M i v = true → i ∈ g) →
      List.Pairwise (fun g1 g2 => ∀ x ∈ g1, x ∉ g2) gs →
      (groupStates M gs st).length = st.length ∧
      (∀ w, st.getD w 1 ≠ 0 → (groupStates M gs st).getD w 1 = st.getD w 1) ∧
      DfsInv (groupStates M gs st) (OUT ++ (groupSegs M gs st).flatten) ∧
      (∀ g ∈ gs, ∀ v ∈ g, (groupStates M gs st).getD v 1 ≠ 0) ∧
      List.Forall₂ (fun g seg => ∀ x, x ∈ seg ↔ x ∈ g) gs (groupSegs M gs st) ∧
      (Acyclic M → DfsTopo M OUT →
        DfsTopo M (OUT ++ (groupSegs M gs st).flatten)) := by
  intro gs
  induction gs with
  | nil =>
    intro st OUT hlen hinv hng _ _ _
    refine ⟨rfl, fun w _ => rfl, by simpa [groupSegs] using hinv, ?_,
      List.Forall₂.nil, fun _ h => by simpa [groupSegs] using h⟩
    intro g hg
    simp at hg
  | cons g gs ih =>
    intro st OUT hlen hinv hng hwhite hclosed hdisj
    have fp := groupFold_post M g st OUT
    obtain ⟨hacc1, hacc2⟩ := groupFold_out_accum M g st OUT
    set stMid := (groupFold M g st []).1 with hstMid
    set seg := (groupFold M g st []).2 with hseg
    rw [hacc1] at fp
    rw [hacc2] at fp
    have hlenMid : stMid.length = st.length := fp.len
    have hinvMid : DfsInv stMid (OUT ++ seg) := fp.inv hlen hinv
    -- the emitted segment equals the group, as a set
    have hsub : ∀ x ∈ seg, x ∈ g := by
      intro x hx
      obtain ⟨d, hd1, hd2⟩ := fp.delta
      have hdseg : d = seg := by
        have := hd1
        exact List.append_cancel_left this.symm
      rw [← hdseg] at hx
      obtain ⟨_, v, hvg, ht⟩ := hd2 x hx
      exact travReach_closed (hclosed g (List.mem_cons_self g gs)) hvg ht
    have hsup : ∀ x ∈ g, x ∈ seg := by
      intro x hx
      have hx0 : st.getD x 1 = 0 := hwhite g (List.mem_cons_self g gs) x hx
      have hxnz : stMid.getD x 1 ≠ 0 := fp.compl x hx
      have hx2 : stMid.getD x 1 = 2 := by
        rcases fp.nogray x hx0 with h1 | h1
        · exact absurd h1 hxnz
        · exact h1
      have hxin : x ∈ OUT ++ seg := (hinvMid.2.2 x).mp hx2
      rcases List.mem_append.mp hxin with h1 | h1
      · exfalso
        have := (hinv.2.2 x).mpr h1
        rw [hx0] at this
        exact absurd this (by decide)
      · exact h1
    -- members of later groups are still unvisited
    have hwhiteMid : ∀ g2 ∈ gs, ∀ v ∈ g2, stMid.getD v 1 = 0 := by
      intro g2 hg2 v hv
      have hv0 : st.getD v 1 = 0 := hwhite g2 (List.mem_cons_of_mem g hg2) v hv
      rcases fp.nogray v hv0 with h1 | h1
      · exact h1
      · exfalso
        have hvin : v ∈ OUT ++ seg := (hinvMid.2.2 v).mp h1
        rcases List.mem_append.mp hvin with h2 | h2
        · have := (hinv.2.2 v).mpr h2
          rw [hv0] at this
          exact absurd this (by decide)
        · have hvg : v ∈ g := hsub v h2
          rw [List.pairwise_cons] at hdisj
          exact hdisj.1 g2 hg2 v hvg hv
    have hngMid : ∀ w, w < stMid.length → stMid.getD w 1 ≠ 1 := by
      intro w hw
      rw [hlenMid] at hw
      by_cases h0 : st.getD w 1 = 0
      · rcases fp.nogray w h0 with h1 | h1 <;> rw [h1] <;> decide
      · rw [fp.keep w h0]
        exact hng w hw
    rw [List.pairwise_cons] at hdisj
    have htail := ih stMid (OUT ++ seg) (by rw [hlenMid]; exact hlen) hinvMid
      hngMid hwhiteMid
      (fun g2 hg2 => hclosed g2 (List.mem_cons_of_mem g hg2)) hdisj.2
    obtain ⟨t1, t2, t3, t4, t5, t6⟩ := htail
    have hstates : groupStates M (g :: gs) st = groupStates M gs stMid := rfl
    have hsegs : groupSegs M (g :: gs) st = seg :: groupSegs M gs stMid := rfl
    rw [hstates, hsegs]
    have hflat : OUT ++ (seg :: groupSegs M gs stMid).flatten
        = (OUT ++ seg) ++ (groupSegs M gs stMid).flatten := by
      simp [List.append_assoc]
    refine ⟨t1.trans hlenMid, ?_, ?_, ?_, ?_, ?_⟩
    · intro w hw
      have h1 := fp.keep w hw
      have h2 := t2 w (by rw [h1]; exact hw)
      rw [h2, h1]
    · rw [hflat]
      exact t3
    · intro g2 hg2 v hv
      rcases List.mem_cons.mp hg2 with h1 | h1
      · subst h1
        have hx2 : stMid.getD v 1 ≠ 0 := fp.compl v hv
        rw [t2 v hx2]
        exact hx2
      · exact t4 g2 h1 v hv
    · exact List.Forall₂.cons (fun x => ⟨hsub x, hsup x⟩) t5
    · intro hacyc htopo
      rw [hflat]
      exact t6 hacyc (fp.topo hlen hinv hacyc hng htopo)

/-! ## Positional characterization of the flood-fill scan -/

theorem markNeighborsAux_getD (M : DependencyMatrix) (v : Nat) :
    ∀ (k : Nat) (l : List Int) (off : Nat), off < l.length →
      (markNeighborsAux M v k l).1.getD off 0 =
        if l.getD off 0 ≠ -1 ∧ (edge M (k+off) v = true ∨ edge M v (k+off) = true)
        then -1 else l.getD off 0 := by
  intro k l
  induction l generalizing k with
  | nil => intro off h; simp at h
  | cons x rest ih =>
    intro off hoff
    simp only [markNeighborsAux]
    cases off with
    | zero =>
      split
      · rename_i h
        show (-1 : Int) = _
        rw [if_pos (by simpa using h)]
      · rename_i h
        show x = _
        rw [if_neg (by simpa using h)]
        rfl
    | succ o =>
      have ho : o < rest.length := by simpa using hoff
      have := ih (k+1) o ho
      have harith : k + 1 + o = k + (o + 1) := by omega
      split
      · show (markNeighborsAux M v (k+1) rest).1.getD o 0 = _
        rw [this, harith]
        rfl
      · show (markNeighborsAux M v (k+1) rest).1.getD o 0 = _
        rw [this, harith]
        rfl

theorem markNeighborsAux_mem_push (M : DependencyMatrix) (v : Nat) :
    ∀ (k : Nat) (l : List Int) (p : Nat),
      p ∈ (markNeighborsAux M v k l).2 ↔
        ∃ off, off < l.length ∧ p = k + off ∧ l.getD off 0 ≠ -1 ∧
          (edge M p v = true ∨ edge M v p = true) := by
  intro k l
  induction l generalizing k with
  | nil =>
    intro p
    simp [markNeighborsAux]
  | cons x rest ih =>
    intro p
    simp only [markNeighborsAux]
    split
    · rename_i h
      show p ∈ k :: (markNeighborsAux M v (k+1) rest).2 ↔ _
      rw [List.mem_cons, ih (k+1) p]
      constructor
      · intro hc
        rcases hc with hc | ⟨off, ho, hp, hne, hedge⟩
        · refine ⟨0, by simp, by omega, ?_, ?_⟩
          · show x ≠ -1
            exact h.1
          · have : k + 0 = k := by omega
            rw [hc]
            simpa using h.2
        · exact ⟨off + 1, by simpa using ho, by omega, hne, hedge⟩
      · intro ⟨off, ho, hp, hne, hedge⟩
        cases off with
        | zero => left; omega
        | succ o =>
          right
          exact ⟨o, by simpa using ho, by omega, hne, hedge⟩
    · rename_i h
      show p ∈ (markNeighborsAux M v (k+1) rest).2 ↔ _
      rw [ih (k+1) p]
      constructor
      · intro ⟨off, ho, hp, hne, hedge⟩
        exact ⟨off + 1, by simpa using ho, by omega, hne, hedge⟩
      · intro ⟨off, ho, hp, hne, hedge⟩
        cases off with
        | zero =>
          exfalso
          have hpk : p = k := by omega
          have hx : (x : Int) ≠ -1 := hne
          rw [hpk] at hedge
          exact h ⟨hx, by simpa using hedge⟩
        | succ o =>
          exact ⟨o, by simpa using ho, by omega, hne, hedge⟩

theorem markNeighborsAux_push_nodup (M : DependencyMatrix) (v : Nat) :
    ∀ (k : Nat) (l : List Int), (markNeighborsAux M v k l).2.Nodup := by
  intro k l
  induction l generalizing k with
  | nil => exact List.nodup_nil
  | cons x rest ih =>
    simp only [markNeighborsAux]
    split
    · show (k :: (markNeighborsAux M v (k+1) rest).2).Nodup
      refine List.nodup_cons.mpr ⟨?_, ih (k+1)⟩
      intro hmem
      obtain ⟨off, _, hp, _, _⟩ := (markNeighborsAux_mem_push M v (k+1) rest k).mp hmem
      omega
    · exact ih (k+1)

theorem flood_perm_shuffle (pj g m p2 : List Nat) (v : Nat) :
    (pj ++ ((v :: g) ++ (p2.reverse ++ m))).Perm ((pj ++ (g ++ (v :: m))) ++ p2) := by
  rw [List.perm_iff_count]
  intro a
  simp only [List.count_append, List.count_cons, List.count_reverse]
  omega

/-! ## The flood fill builds one weak dependency group -/

theorem floodLoop_spec (M : DependencyMatrix) (prio : List Nat) (n : Nat)
    (prevJoin : List Nat) :
    ∀ (member : List Nat) (indices : List Int) (group : List Nat) (gp : Nat),
      indices.length ≤ n →
      (∀ p, p < indices.length →
        indices.getD p 0 = Int.ofNat p ∨ indices.getD p 0 = -1) →
      (∀ q, q < n → ((q ∈ prevJoin ∨ q ∈ group ∨ q ∈ member) ↔
        (indices.length ≤ q ∨ indices.getD q 0 = -1))) →
      (prevJoin ++ (group ++ member)).Nodup →
      (∀ u, u ∈ group ∨ u ∈ member → u < n) →
      (∀ u ∈ group, ∀ i, i < n → (edge M i u = true ∨ edge M u i = true) →
        (i ∈ prevJoin ∨ i ∈ group ∨ i ∈ member)) →
      (∀ u ∈ group, prio.getD u 0 ≤ gp) →
      (gp = 0 ∨ ∃ u ∈ group, gp = prio.getD u 0) →
      (∀ p, p < indices.length →
        (floodLoop M prio member indices group gp).1.getD p 0 = Int.ofNat p ∨
        (floodLoop M prio member indices group gp).1.getD p 0 = -1) ∧
      (∀ q, q < n →
        ((q ∈ prevJoin ∨ q ∈ (floodLoop M prio member indices group gp).2.1) ↔
        (indices.length ≤ q ∨
          (floodLoop M prio member indices group gp).1.getD q 0 = -1))) ∧
      (prevJoin ++ (floodLoop M prio member indices group gp).2.1).Nodup ∧
      (∀ u ∈ (floodLoop M prio member indices group gp).2.1, u < n) ∧
      (∀ u ∈ (floodLoop M prio member indices group gp).2.1, ∀ i, i < n →
        (edge M i u = true ∨ edge M u i = true) →
        (i ∈ prevJoin ∨ i ∈ (floodLoop M prio member indices group gp).2.1)) ∧
      (∀ u, u ∈ group ∨ u ∈ member →
        u ∈ (floodLoop M prio member indices group gp).2.1) ∧
      (∀ u ∈ (floodLoop M prio member indices group gp).2.1,
        prio.getD u 0 ≤ (floodLoop M prio member indices group gp).2.2) ∧
      ((floodLoop M prio member indices group gp).2.2 = 0 ∨
        ∃ u ∈ (floodLoop M prio member indices group gp).2.1,
          (floodLoop M prio member indices group gp).2.2 = prio.getD u 0) := by
  intro member indices group gp
  induction member, indices, group, gp using floodLoop.induct M prio with
  | case1 indices group gp =>
    intro h1 h2 h3 h4 h5 h6 h7 h8
    have hr : floodLoop M prio [] indices group gp
        = (indices, group.reverse, gp) := by rw [floodLoop]
    rw [hr]
    refine ⟨h2, ?_, ?_, ?_, ?_, ?_, ?_, ?_⟩
    · intro q hq
      have := h3 q hq
      simpa [List.mem_reverse] using this
    · have hperm : (prevJoin ++ group.reverse).Perm (prevJoin ++ group) :=
        (group.reverse_perm).append_left prevJoin
      refine hperm.symm.nodup ?_
      simpa using h4
    · intro u hu
      exact h5 u (Or.inl (List.mem_reverse.mp hu))
    · intro u hu i hi hedge
      have := h6 u (List.mem_reverse.mp hu) i hi hedge
      simpa [List.mem_reverse] using this
    · intro u hu
      rcases hu with hu | hu
      · exact List.mem_reverse.mpr hu
      · simp at hu
    · intro u hu
      exact h7 u (List.mem_reverse.mp hu)
    · rcases h8 with h8 | ⟨u, hu, he⟩
      · exact Or.inl h8
      · exact Or.inr ⟨u, List.mem_reverse.mpr hu, he⟩
  | case2 v member indices group gp p ih =>
    intro h1 h2 h3 h4 h5 h6 h7 h8
    have hr : floodLoop M prio (v :: member) indices group gp
        = floodLoop M prio ((markNeighborsAux M v 0 indices).2.reverse ++ member)
            (markNeighborsAux M v 0 indices).1 (v :: group)
            (max (prio.getD v 0) gp) := by rw [floodLoop]
    rw [hr]
    set mk1 := (markNeighborsAux M v 0 indices).1 with hmk1
    set mk2 := (markNeighborsAux M v 0 indices).2 with hmk2
    have hlen : mk1.length = indices.length := markNeighborsAux_length M v 0 indices
    have hvn : v < n := h5 v (Or.inr (List.mem_cons_self v member))
    -- membership in the pushed list, at scan base 0
    have hpush : ∀ q : Nat, q ∈ mk2 ↔ q < indices.length ∧ indices.getD q 0 ≠ -1 ∧
        (edge M q v = true ∨ edge M v q = true) := by
      intro q
      rw [hmk2, markNeighborsAux_mem_push M v 0 indices q]
      constructor
      · intro ⟨off, ho, hq, hne, hedge⟩
        have : q = off := by omega
        subst this
        exact ⟨ho, hne, hedge⟩
      · intro ⟨hq, hne, hedge⟩
        exact ⟨q, hq, by omega, hne, hedge⟩
    have hgetD : ∀ q, q < indices.length →
        (mk1.getD q 0 = -1 ↔ (indices.getD q 0 = -1 ∨ q ∈ mk2)) := by
      intro q hq
      have := markNeighborsAux_getD M v 0 indices q hq
      rw [← hmk1] at this
      have hz : 0 + q = q := by omega
      rw [hz] at this
      rw [this]
      by_cases hc : indices.getD q 0 ≠ -1 ∧
          (edge M q v = true ∨ edge M v q = true)
      · rw [if_pos hc]
        simp only [true_iff]
        right
        exact (hpush q).mpr ⟨hq, hc.1, hc.2⟩
      · rw [if_neg hc]
        constructor
        · intro h; exact Or.inl h
        · intro h
          rcases h with h | h
          · exact h
          · obtain ⟨_, hne, hedge⟩ := (hpush q).mp h
            exact absurd ⟨hne, hedge⟩ hc
    have hfresh : ∀ x ∈ mk2, x ∉ prevJoin ∧ x ∉ group ∧ x ∉ (v :: member) := by
      intro x hx
      obtain ⟨hxlt, hne, _⟩ := (hpush x).mp hx
      have hxn : x < n := Nat.lt_of_lt_of_le hxlt h1
      have := h3 x hxn
      have hnr : ¬ (indices.length ≤ x ∨ indices.getD x 0 = -1) := by
        push_neg
        exact ⟨by omega, hne⟩
      have hnl := (not_iff_not.mpr this).mpr hnr
      push_neg at hnl
      exact ⟨hnl.1, hnl.2.1, hnl.2.2⟩
    have hh1 : mk1.length ≤ n := by rw [hlen]; exact h1
    have hh2 : ∀ p, p < mk1.length →
        mk1.getD p 0 = Int.ofNat p ∨ mk1.getD p 0 = -1 := by
      intro q hq
      rw [hlen] at hq
      by_cases hm : mk1.getD q 0 = -1
      · exact Or.inr hm
      · have hold := h2 q hq
        have : mk1.getD q 0 = indices.getD q 0 := by
          have hg := markNeighborsAux_getD M v 0 indices q hq
          rw [← hmk1] at hg
          rcases Decidable.em (indices.getD q 0 ≠ -1 ∧
              (edge M (0+q) v = true ∨ edge M v (0+q) = true)) with hc | hc
          · rw [hg, if_pos hc] at hm
            exact absurd rfl hm
          · rw [hg, if_neg hc]
        rw [this]
        exact hold
    have hh3 : ∀ q, q < n → ((q ∈ prevJoin ∨ q ∈ (v :: group) ∨
        q ∈ (mk2.reverse ++ member)) ↔
        (mk1.length ≤ q ∨ mk1.getD q 0 = -1)) := by
      intro q hq
      rw [hlen]
      by_cases hql : q < indices.length
      · rw [hgetD q hql]
        have hold := h3 q hq
        constructor
        · intro hc
          rcases hc with hc | hc | hc
          · right
            rcases (hold.mp (Or.inl hc)) with h | h
            · omega
            · exact Or.inl h
          · rcases List.mem_cons.mp hc with hc | hc
            · subst hc
              right
              rcases hold.mp (Or.inr (Or.inr (List.mem_cons_self q member))) with h | h
              · omega
              · exact Or.inl h
            · right
              rcases hold.mp (Or.inr (Or.inl hc)) with h | h
              · omega
              · exact Or.inl h
          · rcases List.mem_append.mp hc with hc | hc
            · right
              right
              exact List.mem_reverse.mp hc
            · right
              rcases hold.mp (Or.inr (Or.inr (List.mem_cons_of_mem v hc))) with h | h
              · omega
              · exact Or.inl h
        · intro hc
          rcases hc with hc | hc
          · omega
          · rcases hc with hc | hc
            · rcases hold.mpr (Or.inr hc) with h | h | h
              · exact Or.inl h
              · exact Or.inr (Or.inl (List.mem_cons_of_mem v h))
              · rcases List.mem_cons.mp h with h | h
                · exact Or.inr (Or.inl (h ▸ List.mem_cons_self v group))
                · exact Or.inr (Or.inr (List.mem_append.mpr (Or.inr h)))
            · exact Or.inr (Or.inr (List.mem_append.mpr
                (Or.inl (List.mem_reverse.mpr hc))))
      · have hge : indices.length ≤ q := Nat.le_of_not_lt hql
        have hold := h3 q hq
        constructor
        · intro _
          exact Or.inl hge
        · intro _
          rcases hold.mpr (Or.inl hge) with h | h | h
          · exact Or.inl h
          · exact Or.inr (Or.inl (List.mem_cons_of_mem v h))
          · rcases List.mem_cons.mp h with h | h
            · exact Or.inr (Or.inl (h ▸ List.mem_cons_self v group))
            · exact Or.inr (Or.inr (List.mem_append.mpr (Or.inr h)))
    have hh4 : (prevJoin ++ ((v :: group) ++ (mk2.reverse ++ member))).Nodup := by
      have hperm := flood_perm_shuffle prevJoin group member mk2 v
      refine hperm.symm.nodup ?_
      rw [List.nodup_append]
      refine ⟨h4, markNeighborsAux_push_nodup M v 0 indices, ?_⟩
      intro a ha hamem
      obtain ⟨hpj, hg, hm⟩ := hfresh a hamem
      rcases List.mem_append.mp ha with h | h
      · exact hpj h
      · rcases List.mem_append.mp h with h | h
        · exact hg h
        · exact hm h
    have hh5 : ∀ u, u ∈ (v :: group) ∨ u ∈ (mk2.reverse ++ member) → u < n := by
      intro u hu
      rcases hu with hu | hu
      · rcases List.mem_cons.mp hu with hu | hu
        · exact hu ▸ hvn
        · exact h5 u (Or.inl hu)
      · rcases List.mem_append.mp hu with hu | hu
        · obtain ⟨hlt, _, _⟩ := (hpush u).mp (List.mem_reverse.mp hu)
          omega
        · exact h5 u (Or.inr (List.mem_cons_of_mem v hu))
    have hh6 : ∀ u ∈ (v :: group), ∀ i, i < n →
        (edge M i u = true ∨ edge M u i = true) →
        (i ∈ prevJoin ∨ i ∈ (v :: group) ∨ i ∈ (mk2.reverse ++ member)) := by
      intro u hu i hi hedge
      have hmap : i ∈ prevJoin ∨ i ∈ group ∨ i ∈ (v :: member) →
          i ∈ prevJoin ∨ i ∈ (v :: group) ∨ i ∈ (mk2.reverse ++ member) := by
        intro hc
        rcases hc with hc | hc | hc
        · exact Or.inl hc
        · exact Or.inr (Or.inl (List.mem_cons_of_mem v hc))
        · rcases List.mem_cons.mp hc with hc | hc
          · exact Or.inr (Or.inl (hc ▸ List.mem_cons_self v group))
          · exact Or.inr (Or.inr (List.mem_append.mpr (Or.inr hc)))
      rcases List.mem_cons.mp hu with hu | hu
      · subst hu
        by_cases hil : i < indices.length
        · by_cases hmark : indices.getD i 0 = -1
          · exact hmap ((h3 i hi).mpr (Or.inr hmark))
          · have : i ∈ mk2 := (hpush i).mpr ⟨hil, hmark, by tauto⟩
            exact Or.inr (Or.inr (List.mem_append.mpr
              (Or.inl (List.mem_reverse.mpr this))))
        · exact hmap ((h3 i hi).mpr (Or.inl (Nat.le_of_not_lt hil)))
      · exact hmap (h6 u hu i hi hedge)
    have hh7 : ∀ u ∈ (v :: group), prio.getD u 0 ≤ max (prio.getD v 0) gp := by
      intro u hu
      rcases List.mem_cons.mp hu with hu | hu
      · subst hu
        exact Nat.le_max_left _ _
      · exact Nat.le_trans (h7 u hu) (Nat.le_max_right _ _)
    have hh8 : max (prio.getD v 0) gp = 0 ∨
        ∃ u ∈ (v :: group), max (prio.getD v 0) gp = prio.getD u 0 := by
      rcases max_choice (prio.getD v 0) gp with hmax | hmax
      · exact Or.inr ⟨v, List.mem_cons_self v group, hmax⟩
      · rw [hmax]
        rcases h8 with h8 | ⟨u, hu, he⟩
        · exact Or.inl h8
        · exact Or.inr ⟨u, List.mem_cons_of_mem v hu, he⟩
    obtain ⟨c1, c2, c3, c4, c5, c6, c7, c8⟩ :=
      ih hh1 hh2 hh3 hh4 hh5 hh6 hh7 hh8
    refine ⟨?_, ?_, c3, c4, c5, ?_, c7, c8⟩
    · intro q hq
      exact c1 q (by rw [hlen]; exact hq)
    · intro q hq
      have := c2 q hq
      rw [hlen] at this
      exact this
    · intro u hu
      rcases hu with hu | hu
      · exact c6 u (Or.inl (List.mem_cons_of_mem v hu))
      · rcases List.mem_cons.mp hu with hu | hu
        · exact c6 u (Or.inl (hu ▸ List.mem_cons_self v group))
        · exact c6 u (Or.inr (List.mem_append.mpr (Or.inr hu)))


/-! ## The outer partitioning loop produces a weak-component partition -/

theorem getLast_eq_getD (l : List Int) (h : l ≠ []) :
    l.getLast h = l.getD (l.length - 1) 0 := by
  rw [List.getLast_eq_getElem, List.getD_eq_getElem?_getD, List.getElem?_eq_getElem]
  rfl

theorem dropLast_getD (l : List Int) (p : Nat) (hp : p < l.dropLast.length) :
    l.dropLast.getD p 0 = l.getD p 0 := by
  have hp2 : p < l.length := by
    rw [List.length_dropLast] at hp
    omega
  rw [List.getD_eq_getElem?_getD, List.getElem?_eq_getElem hp,
    List.getD_eq_getElem?_getD, List.getElem?_eq_getElem hp2]
  simp [List.getElem_dropLast]

/-- The priority recorded for a group bounds the priorities of its members and
is attained by one of them unless it is the initial `LOWEST_SYSTEM_PRIORITY`. -/
def GroupPrio (prio : List Nat) (p : Nat) (g : List Nat) : Prop :=
  (∀ u ∈ g, prio.getD u 0 ≤ p) ∧ (p = 0 ∨ ∃ u ∈ g, p = prio.getD u 0)

theorem buildGroupsLoop_spec (M : DependencyMatrix) (prio : List Nat) (n : Nat) :
    ∀ (indices : List Int) (gs : List (List Nat)) (ps : List Nat),
      indices.length ≤ n →
      (∀ p, p < indices.length →
        indices.getD p 0 = Int.ofNat p ∨ indices.getD p 0 = -1) →
      (∀ q, q < n → (q ∈ gs.flatten ↔
        (indices.length ≤ q ∨ indices.getD q 0 = -1))) →
      gs.flatten.Nodup →
      (∀ g ∈ gs, ∀ u ∈ g, u < n) →
      (∀ g ∈ gs, ∀ u ∈ g, ∀ i, i < n →
        (edge M i u = true ∨ edge M u i = true) → i ∈ g) →
      (∀ g ∈ gs, g ≠ []) →
      List.Forall₂ (GroupPrio prio) ps gs →
      (∀ q, q < n → q ∈ (buildGroupsLoop M prio indices gs ps).1.flatten) ∧
      (buildGroupsLoop M prio indices gs ps).1.flatten.Nodup ∧
      (∀ g ∈ (buildGroupsLoop M prio indices gs ps).1, ∀ u ∈ g, u < n) ∧
      (∀ g ∈ (buildGroupsLoop M prio indices gs ps).1, ∀ u ∈ g, ∀ i, i < n →
        (edge M i u = true ∨ edge M u i = true) → i ∈ g) ∧
      (∀ g ∈ (buildGroupsLoop M prio indices gs ps).1, g ≠ []) ∧
      List.Forall₂ (GroupPrio prio)
        (buildGroupsLoop M prio indices gs ps).2
        (buildGroupsLoop M prio indices gs ps).1 := by
  intro indices gs ps
  induction indices, gs, ps using buildGroupsLoop.induct M prio with
  | case1 gs ps =>
    intro h1 h2 h3 h4 h5 h6 h7 h8
    have hr : buildGroupsLoop M prio [] gs ps = (gs.reverse, ps.reverse) := by
      rw [buildGroupsLoop]
    rw [hr]
    refine ⟨?_, ?_, ?_, ?_, ?_, ?_⟩
    · intro q hq
      have hmem : q ∈ gs.flatten := (h3 q hq).mpr (Or.inl (Nat.zero_le q))
      obtain ⟨l, hl, hql⟩ := List.mem_flatten.mp hmem
      exact List.mem_flatten.mpr ⟨l, List.mem_reverse.mpr hl, hql⟩
    · exact ((gs.reverse_perm).flatten).symm.nodup h4
    · intro g hg
      exact h5 g (List.mem_reverse.mp hg)
    · intro g hg
      exact h6 g (List.mem_reverse.mp hg)
    · intro g hg
      exact h7 g (List.mem_reverse.mp hg)
    · exact List.forall₂_reverse_iff.mpr h8
  | case2 x xs gs ps index rest hneg ih =>
    intro h1 h2 h3 h4 h5 h6 h7 h8
    have hxlen : (x :: xs).length = xs.length + 1 := rfl
    have hlast : index = (x :: xs).getD ((x :: xs).length - 1) 0 :=
      getLast_eq_getD (x :: xs) (List.cons_ne_nil x xs)
    have hrestdef : rest = (x :: xs).dropLast := rfl
    have hr : buildGroupsLoop M prio (x :: xs) gs ps
        = buildGroupsLoop M prio rest gs ps := by
      rw [buildGroupsLoop, if_pos hneg]
    rw [hr]
    clear_value index rest
    have hlen : rest.length = (x :: xs).length - 1 := by
      rw [hrestdef]
      exact List.length_dropLast _
    have hrg : ∀ p, p < rest.length → rest.getD p 0 = (x :: xs).getD p 0 := by
      intro p hp
      rw [hrestdef] at hp ⊢
      exact dropLast_getD (x :: xs) p hp
    refine ih ?_ ?_ ?_ h4 h5 h6 h7 h8
    · omega
    · intro p hp
      rw [hrg p hp]
      exact h2 p (by omega)
    · intro q hq
      rw [h3 q hq]
      by_cases hql : q < rest.length
      · rw [hrg q hql]
        constructor
        · intro hc
          rcases hc with hc | hc
          · omega
          · exact Or.inr hc
        · intro hc
          rcases hc with hc | hc
          · omega
          · exact Or.inr hc
      · constructor
        · intro _
          exact Or.inl (by omega)
        · intro _
          have hqlen : q = (x :: xs).length - 1 ∨ (x :: xs).length ≤ q := by omega
          rcases hqlen with hqe | hqe
          · exact Or.inr (by rw [← hqe] at hlast; rw [← hlast]; exact hneg)
          · exact Or.inl hqe
  | case3 x xs gs ps index rest hneg r ih =>
    intro h1 h2 h3 h4 h5 h6 h7 h8
    have hxlen : (x :: xs).length = xs.length + 1 := rfl
    have hlast : index = (x :: xs).getD ((x :: xs).length - 1) 0 :=
      getLast_eq_getD (x :: xs) (List.cons_ne_nil x xs)
    have hrestdef : rest = (x :: xs).dropLast := rfl
    have hrdef : r = floodLoop M prio [index.toNat] rest [] LOWEST_SYSTEM_PRIORITY :=
      rfl
    have hr : buildGroupsLoop M prio (x :: xs) gs ps
        = buildGroupsLoop M prio r.1 (r.2.1 :: gs) (r.2.2 :: ps) := by
      rw [buildGroupsLoop, if_neg hneg]
    rw [hr]
    clear_value index rest r
    have hlenr : rest.length = (x :: xs).length - 1 := by
      rw [hrestdef]
      exact List.length_dropLast _
    have hrg : ∀ p, p < rest.length → rest.getD p 0 = (x :: xs).getD p 0 := by
      intro p hp
      rw [hrestdef] at hp ⊢
      exact dropLast_getD (x :: xs) p hp
    have hidx : index = Int.ofNat ((x :: xs).length - 1) := by
      rcases h2 ((x :: xs).length - 1) (by simp) with hh | hh
      · rw [hlast, hh]
      · exact absurd (hlast.trans hh) hneg
    have hs : index.toNat = rest.length := by
      rw [hidx, hlenr]
      simp
    have hsn : index.toNat < n := by omega
    have hsfresh : index.toNat ∉ gs.flatten := by
      intro hc
      rcases (h3 index.toNat hsn).mp hc with hc2 | hc2
      · omega
      · have he : index.toNat = (x :: xs).length - 1 := by omega
        rw [he] at hc2
        exact hneg (hlast.trans hc2)
    obtain ⟨c1, c2, c3, c4, c5, c6, c7, c8⟩ :=
      floodLoop_spec M prio n gs.flatten [index.toNat] rest []
        LOWEST_SYSTEM_PRIORITY
        (by omega)
        (by intro p hp; rw [hrg p hp]; exact h2 p (by omega))
        (by
          intro q hq
          constructor
          · intro hc
            rcases hc with hc | hc | hc
            · rcases (h3 q hq).mp hc with hc2 | hc2
              · exact Or.inl (by omega)
              · by_cases hql : q < rest.length
                · rw [hrg q hql]
                  exact Or.inr hc2
                · exact Or.inl (by omega)
            · simp at hc
            · have : q = index.toNat := by simpa using hc
              exact Or.inl (by omega)
          · intro hc
            rcases hc with hc | hc
            · by_cases hqe : q = index.toNat
              · exact Or.inr (Or.inr (by simp [hqe]))
              · left
                refine (h3 q hq).mpr (Or.inl ?_)
                omega
            · left
              refine (h3 q hq).mpr ?_
              by_cases hql : q < rest.length
              · rw [hrg q hql] at hc
                exact Or.inr hc
              · rw [List.getD_eq_default _ _ (Nat.le_of_not_lt hql)] at hc
                exact absurd hc (by norm_num))
        (by
          refine (List.perm_append_comm.nodup ?_)
          simp only [List.nil_append, List.singleton_append]
          exact List.nodup_cons.mpr ⟨hsfresh, h4⟩)
        (by
          intro u hu
          rcases hu with hu | hu
          · simp at hu
          · have : u = index.toNat := by simpa using hu
            omega)
        (by intro u hu; simp at hu)
        (by intro u hu; simp at hu)
        (Or.inl rfl)
    rw [← hrdef] at c1 c2 c3 c4 c5 c6 c7 c8
    have hrlen : r.1.length = rest.length := by
      rw [hrdef]
      exact floodLoop_length M prio _ _ _ _
    refine ih ?_ ?_ ?_ ?_ ?_ ?_ ?_ ?_
    · omega
    · intro p hp
      exact c1 p (by omega)
    · intro q hq
      have := c2 q hq
      rw [List.flatten_cons, List.mem_append, hrlen]
      rw [← this]
      constructor
      · intro hc
        rcases hc with hc | hc
        · exact Or.inr hc
        · exact Or.inl hc
      · intro hc
        rcases hc with hc | hc
        · exact Or.inr hc
        · exact Or.inl hc
    · rw [List.flatten_cons]
      exact List.perm_append_comm.nodup c3
    · intro g hg
      rcases List.mem_cons.mp hg with hg | hg
      · intro u hu
        exact c4 u (hg ▸ hu)
      · exact h5 g hg
    · intro g hg u hu i hi hedge
      rcases List.mem_cons.mp hg with hg | hg
      · subst hg
        rcases c5 u hu i hi hedge with hc | hc
        · exfalso
          obtain ⟨g', hg', hig'⟩ := List.mem_flatten.mp hc
          have hun : u < n := c4 u hu
          have hug' : u ∈ g' := h6 g' hg' i hig' u hun
            (by rcases hedge with he | he
                · exact Or.inr he
                · exact Or.inl he)
          have huflat : u ∈ gs.flatten := List.mem_flatten.mpr ⟨g', hg', hug'⟩
          have hdisj := (List.nodup_append.mp c3).2.2
          exact hdisj huflat hu
        · exact hc
      · exact h6 g hg u hu i hi hedge
    · intro g hg
      rcases List.mem_cons.mp hg with hg | hg
      · subst hg
        exact List.ne_nil_of_mem (c6 index.toNat (Or.inr (by simp)))
      · exact h7 g hg
    · exact List.Forall₂.cons ⟨c7, c8⟩ h8

/-- The partition computed by `buildGroups`: every vertex below `n` is covered
exactly once, groups are nonempty, bounded, closed under undirected dependency
edges, and paired with priorities satisfying `GroupPrio`. -/
theorem buildGroups_spec (M : DependencyMatrix) (prio : List Nat) :
    (∀ q, q < M.length → q ∈ (buildGroups M prio).1.flatten) ∧
    (buildGroups M prio).1.flatten.Nodup ∧
    (∀ g ∈ (buildGroups M prio).1, ∀ u ∈ g, u < M.length) ∧
    (∀ g ∈ (buildGroups M prio).1, ∀ u ∈ g, ∀ i, i < M.length →
      (edge M i u = true ∨ edge M u i = true) → i ∈ g) ∧
    (∀ g ∈ (buildGroups M prio).1, g ≠ []) ∧
    List.Forall₂ (GroupPrio prio) (buildGroups M prio).2 (buildGroups M prio).1 := by
  have hget : ∀ p, p < M.length →
      ((List.range M.length).map Int.ofNat).getD p 0 = Int.ofNat p := by
    intro p hp
    rw [List.getD_eq_getElem?_getD, List.getElem?_map, List.getElem?_range hp]
    rfl
  exact buildGroupsLoop_spec M prio M.length
    ((List.range M.length).map Int.ofNat) [] []
    (by simp)
    (by
      intro p hp
      simp only [List.length_map, List.length_range] at hp
      exact Or.inl (hget p hp))
    (by
      intro q hq
      simp only [List.flatten_nil, List.not_mem_nil, false_iff]
      push_neg
      refine ⟨by simpa using hq, ?_⟩
      rw [hget q hq]
      simp)
    (by simp)
    (by simp)
    (by simp)
    (by simp)
    List.Forall₂.nil

/-! ## Assembly: the work order is a permutation of the system indices -/

theorem getD_replicate_nat (n w a d : Nat) :
    (List.replicate n a).getD w d = if w < n then a else d := by
  rw [List.getD_eq_getElem?_getD, List.getElem?_replicate]
  split <;> rfl

theorem flatten_perm_of_forall₂ {l1 l2 : List (List Nat)}
    (h : List.Forall₂ List.Perm l1 l2) : l1.flatten.Perm l2.flatten := by
  induction h with
  | nil => exact List.Perm.refl _
  | cons hp _ ih =>
    simp only [List.flatten_cons]
    exact hp.append ih

theorem forall₂_map_reverse (L : List (List Nat)) :
    List.Forall₂ List.Perm (L.map List.reverse) L := by
  induction L with
  | nil => exact List.Forall₂.nil
  | cons a l ih => exact List.Forall₂.cons (List.reverse_perm a) ih

theorem mmInsert_perm (k : Nat) (g : List Nat) :
    ∀ acc : List (Nat × List Nat), (mmInsert k g acc).Perm ((k, g) :: acc) := by
  intro acc
  induction acc with
  | nil => exact List.Perm.refl _
  | cons q rest ih =>
    rw [mmInsert]
    split
    · exact (ih.cons q).trans (List.Perm.swap (k, g) q rest)
    · exact List.Perm.refl _

theorem mmFold_perm :
    ∀ (l acc : List (Nat × List Nat)),
      (List.foldl (fun acc q => mmInsert q.1 q.2 acc) acc l).Perm (l ++ acc) := by
  intro l
  induction l with
  | nil =>
    intro acc
    rw [List.nil_append]
    exact List.Perm.refl _
  | cons q rest ih =>
    intro acc
    have h1 := ih (mmInsert q.1 q.2 acc)
    have h2 : (rest ++ mmInsert q.1 q.2 acc).Perm (rest ++ (q :: acc)) :=
      List.Perm.append_left rest (mmInsert_perm q.1 q.2 acc)
    exact ((h1.trans h2).trans List.perm_middle)

theorem sortedGroups_eq_foldl (gps : List Nat) (orders : List (List Nat)) :
    sortedGroups gps orders
      = List.foldl (fun acc q => mmInsert q.1 q.2 acc) []
          ((List.zip gps orders).map
            (fun q => (MAX_SYSTEM_PRIORITY - q.1, q.2))) := by
  rw [List.foldl_map]
  rfl

theorem sortedGroups_snd_perm (gps : List Nat) (orders : List (List Nat))
    (hlen : gps.length = orders.length) :
    ((sortedGroups gps orders).map Prod.snd).Perm orders := by
  rw [sortedGroups_eq_foldl]
  have h2 := mmFold_perm
    ((List.zip gps orders).map (fun q => (MAX_SYSTEM_PRIORITY - q.1, q.2))) []
  have h3 := h2.map Prod.snd
  rw [List.append_nil] at h3
  refine h3.trans ?_
  rw [List.map_map]
  have hc : (Prod.snd ∘ fun q : Nat × List Nat =>
      (MAX_SYSTEM_PRIORITY - q.1, q.2)) = Prod.snd := rfl
  rw [hc, List.map_snd_zip gps orders (by omega)]

/-- The initial all-white vertex-state list satisfies the DFS invariant. -/
theorem dfsInv_init (n : Nat) : DfsInv (List.replicate n 0) [] := by
  refine ⟨?_, List.nodup_nil, ?_⟩
  · intro w
    rw [getD_replicate_nat]
    split
    · exact Or.inl rfl
    · exact Or.inr (Or.inl rfl)
  · intro w
    rw [getD_replicate_nat]
    constructor
    · intro h
      split at h <;> omega
    · intro h
      simp at h

/-- The per-group DFS passes over the weak-component partition: each emitted
segment equals its group as a set, the concatenated postorder has no
duplicates, and for an acyclic matrix the concatenated postorder is
topologically sound. -/
theorem segs_facts (M : DependencyMatrix) (prio : List Nat) :
    List.Forall₂ (fun g seg => ∀ x, x ∈ seg ↔ x ∈ g) (buildGroups M prio).1
      (groupSegs M (buildGroups M prio).1 (List.replicate M.length 0)) ∧
    (groupSegs M (buildGroups M prio).1
      (List.replicate M.length 0)).flatten.Nodup ∧
    (Acyclic M → DfsTopo M (groupSegs M (buildGroups M prio).1
      (List.replicate M.length 0)).flatten) := by
  obtain ⟨hcov, hnd, hbound, hclosed, hne, hprio⟩ := buildGroups_spec M prio
  have hst0len : (List.replicate M.length (0 : Nat)).length = M.length := by
    simp
  have hng0 : ∀ w, w < (List.replicate M.length (0 : Nat)).length →
      (List.replicate M.length (0 : Nat)).getD w 1 ≠ 1 := by
    intro w hw
    rw [hst0len] at hw
    rw [getD_replicate_nat, if_pos hw]
    omega
  have hwhite : ∀ g ∈ (buildGroups M prio).1, ∀ v ∈ g,
      (List.replicate M.length (0 : Nat)).getD v 1 = 0 := by
    intro g hg v hv
    rw [getD_replicate_nat, if_pos (hbound g hg v hv)]
  have hcl2 : ∀ g ∈ (buildGroups M prio).1, ∀ v ∈ g, ∀ i,
      edge M i v = true → i ∈ g := by
    intro g hg v hv i hi
    exact hclosed g hg v hv i (edge_lt_left hi) (Or.inl hi)
  have hdisj : List.Pairwise (fun g1 g2 => ∀ x ∈ g1, x ∉ g2)
      (buildGroups M prio).1 :=
    (List.nodup_flatten.mp hnd).2.imp (fun h x hx hx2 => h hx hx2)
  obtain ⟨s1, s2, s3, s4, s5, s6⟩ := groupSeq M (buildGroups M prio).1
    (List.replicate M.length 0) [] (le_of_eq hst0len.symm)
    (dfsInv_init M.length) hng0 hwhite hcl2 hdisj
  refine ⟨s5, by simpa using s3.2.1, ?_⟩
  intro hacyc
  have := s6 hacyc (by intro w hw; simp at hw)
  simpa using this

/-- The concatenated work order is a permutation of `0, …, n-1`. -/
theorem computeWorkOrder_perm (M : DependencyMatrix) (prio : List Nat) :
    (computeWorkOrder M prio).Perm (List.range M.length) := by
  obtain ⟨hcov, hnd, hbound, hclosed, hne, hprio⟩ := buildGroups_spec M prio
  obtain ⟨s5, hsegnd, _⟩ := segs_facts M prio
  have hfg : List.Forall₂ List.Perm
      (groupSegs M (buildGroups M prio).1 (List.replicate M.length 0))
      (buildGroups M prio).1 := by
    rw [List.forall₂_iff_get]
    obtain ⟨hl5, hget5⟩ := List.forall₂_iff_get.mp s5
    refine ⟨hl5.symm, ?_⟩
    intro i h1 h2
    refine (List.perm_ext_iff_of_nodup ?_ ?_).mpr (hget5 i h2 h1)
    · exact (List.nodup_flatten.mp hsegnd).1 _ (List.get_mem _ i h1)
    · exact (List.nodup_flatten.mp hnd).1 _ (List.get_mem _ i h2)
  have hgbperm : (buildGroups M prio).1.flatten.Perm (List.range M.length) := by
    refine (List.perm_ext_iff_of_nodup hnd (List.nodup_range M.length)).mpr ?_
    intro a
    constructor
    · intro ha
      obtain ⟨g, hg, hag⟩ := List.mem_flatten.mp ha
      exact List.mem_range.mpr (hbound g hg a hag)
    · intro ha
      exact hcov a (List.mem_range.mp ha)
  have hlens : (buildGroups M prio).2.length
      = (groupOrdersAux M (buildGroups M prio).1
          (List.replicate M.length 0)).length := by
    rw [groupOrdersAux_eq_segs, List.length_map]
    rw [hprio.length_eq, s5.length_eq]
  have hsg := sortedGroups_snd_perm (buildGroups M prio).2
    (groupOrdersAux M (buildGroups M prio).1 (List.replicate M.length 0)) hlens
  have hwo : computeWorkOrder M prio
      = ((sortedGroups (buildGroups M prio).2
          (groupOrdersAux M (buildGroups M prio).1
            (List.replicate M.length 0))).map Prod.snd).flatten := rfl
  rw [hwo]
  refine (hsg.flatten).trans ?_
  rw [groupOrdersAux_eq_segs]
  refine (flatten_perm_of_forall₂ (forall₂_map_reverse _)).trans ?_
  exact (flatten_perm_of_forall₂ hfg).trans hgbperm

/-- C10: for every dependency matrix over `n` registered systems — cyclic
ones included — `UpdateSystemWorkOrder` leaves a work order of length exactly
`n` that contains each system type index exactly once: it is a permutation of
`0, …, n-1`. -/
theorem updateSystemWorkOrder_permutation (s : SystemManager) :
    ((UpdateSystemWorkOrder s).m_SystemWorkOrder).Perm
      (List.range s.m_SystemDependencyMatrix.length) ∧
    (UpdateSystemWorkOrder s).m_SystemWorkOrder.length
      = s.m_SystemDependencyMatrix.length ∧
    (∀ i, i < s.m_SystemDependencyMatrix.length →
      (UpdateSystemWorkOrder s).m_SystemWorkOrder.count i = 1) := by
  have hp := computeWorkOrder_perm s.m_SystemDependencyMatrix
    s.m_SystemPriorities
  have hwo : (UpdateSystemWorkOrder s).m_SystemWorkOrder
      = computeWorkOrder s.m_SystemDependencyMatrix s.m_SystemPriorities := rfl
  rw [hwo]
  refine ⟨hp, by rw [hp.length_eq, List.length_range], ?_⟩
  intro i hi
  rw [hp.count_eq i]
  exact List.count_eq_one_of_mem (List.nodup_range _) (List.mem_range.mpr hi)

/-- Closed instance of C10's permutation statement on a two-system manager
with a cyclic dependency matrix. -/
theorem updateSystemWorkOrder_permutation_witness :
    ((UpdateSystemWorkOrder
        ⟨[[false, true], [true, false]], [3, 7], [true, true], []⟩
      ).m_SystemWorkOrder).Perm (List.range 2) ∧
    (0 : Nat) < 2 ∧
    (UpdateSystemWorkOrder
        ⟨[[false, true], [true, false]], [3, 7], [true, true], []⟩
      ).m_SystemWorkOrder.count 0 = 1 := by
  have h := updateSystemWorkOrder_permutation
    ⟨[[false, true], [true, false]], [3, 7], [true, true], []⟩
  exact ⟨h.1, by decide, h.2.2 0 (by decide)⟩


/-! ## The multimap fold sorts groups by ascending key, stably -/

theorem mmInsert_eq_takeDrop (k : Nat) (g : List Nat) :
    ∀ acc : List (Nat × List Nat),
      mmInsert k g acc
        = acc.takeWhile (fun q => q.1 ≤ k) ++ (k, g) ::
            acc.dropWhile (fun q => q.1 ≤ k) := by
  intro acc
  induction acc with
  | nil => rfl
  | cons q rest ih =>
    rw [mmInsert, List.takeWhile_cons, List.dropWhile_cons]
    by_cases h : q.1 ≤ k
    · rw [if_pos h, ih]
      simp [h]
    · rw [if_neg h]
      simp [h]

theorem dropWhile_keys {k : Nat} :
    ∀ {acc : List (Nat × List Nat)},
      List.Pairwise (fun p q => p.1 ≤ q.1) acc →
      ∀ p ∈ acc.dropWhile (fun q => q.1 ≤ k), k < p.1 := by
  intro acc
  induction acc with
  | nil =>
    intro _ p hp
    simp at hp
  | cons q rest ih =>
    intro hs p hp
    rw [List.pairwise_cons] at hs
    rw [List.dropWhile_cons] at hp
    by_cases h : q.1 ≤ k
    · rw [if_pos (by simp [h])] at hp
      exact ih hs.2 p hp
    · rw [if_neg (by simp [h])] at hp
      rcases List.mem_cons.mp hp with hp | hp
      · rw [hp]
        omega
      · have := hs.1 p hp
        omega

theorem mmInsert_sorted (k : Nat) (g : List Nat) :
    ∀ {acc : List (Nat × List Nat)},
      List.Pairwise (fun p q => p.1 ≤ q.1) acc →
      List.Pairwise (fun p q => p.1 ≤ q.1) (mmInsert k g acc) := by
  intro acc
  induction acc with
  | nil =>
    intro _
    exact List.pairwise_singleton _ _
  | cons q rest ih =>
    intro hs
    rw [List.pairwise_cons] at hs
    rw [mmInsert]
    by_cases h : q.1 ≤ k
    · rw [if_pos h, List.pairwise_cons]
      refine ⟨?_, ih hs.2⟩
      intro p hp
      have hp2 : p ∈ (k, g) :: rest := (mmInsert_perm k g rest).subset hp
      rcases List.mem_cons.mp hp2 with hp2 | hp2
      · rw [hp2]
        exact h
      · exact hs.1 p hp2
    · rw [if_neg h, List.pairwise_cons]
      refine ⟨?_, List.pairwise_cons.mpr hs⟩
      intro p hp
      rcases List.mem_cons.mp hp with hp | hp
      · rw [hp]
        omega
      · have := hs.1 p hp
        omega

theorem mmInsert_keeps {k : Nat} {g : List Nat} {acc : List (Nat × List Nat)}
    {x y : Nat × List Nat} (h : [x, y].Sublist acc) :
    [x, y].Sublist (mmInsert k g acc) := by
  rw [mmInsert_eq_takeDrop]
  have hd : acc = acc.takeWhile (fun q => q.1 ≤ k)
      ++ acc.dropWhile (fun q => q.1 ≤ k) :=
    (List.takeWhile_append_dropWhile _ _).symm
  rw [hd] at h
  exact h.trans ((List.sublist_cons_self (k, g) _).append_left _)

theorem mmInsert_after {k : Nat} {g : List Nat} {acc : List (Nat × List Nat)}
    (hs : List.Pairwise (fun p q => p.1 ≤ q.1) acc)
    {p : Nat × List Nat} (hp : p ∈ acc) (hk : p.1 ≤ k) :
    [p, (k, g)].Sublist (mmInsert k g acc) := by
  rw [mmInsert_eq_takeDrop]
  have hptw : p ∈ acc.takeWhile (fun q => q.1 ≤ k) := by
    have hd : acc = acc.takeWhile (fun q => q.1 ≤ k)
        ++ acc.dropWhile (fun q => q.1 ≤ k) :=
      (List.takeWhile_append_dropWhile _ _).symm
    rw [hd] at hp
    rcases List.mem_append.mp hp with h | h
    · exact h
    · exact absurd (dropWhile_keys hs p h) (by omega)
  exact List.Sublist.append (List.singleton_sublist.mpr hptw)
    ((List.nil_sublist _).cons₂ (k, g))

theorem mmInsert_before {k : Nat} {g : List Nat} {acc : List (Nat × List Nat)}
    {p : Nat × List Nat} (hp : p ∈ acc) (hk : k < p.1) :
    [(k, g), p].Sublist (mmInsert k g acc) := by
  rw [mmInsert_eq_takeDrop]
  have hpdw : p ∈ acc.dropWhile (fun q => q.1 ≤ k) := by
    have hd : acc = acc.takeWhile (fun q => q.1 ≤ k)
        ++ acc.dropWhile (fun q => q.1 ≤ k) :=
      (List.takeWhile_append_dropWhile _ _).symm
    rw [hd] at hp
    rcases List.mem_append.mp hp with h | h
    · have := List.mem_takeWhile_imp h
      exact absurd (by simpa using this) (by omega)
    · exact h
  exact ((List.singleton_sublist.mpr hpdw).cons₂ (k, g)).trans
    (List.sublist_append_right _ _)

theorem mmFold_facts :
    ∀ (l acc : List (Nat × List Nat)),
      List.Pairwise (fun p q => p.1 ≤ q.1) acc →
      (∀ x y : Nat × List Nat, [x, y].Sublist acc →
        [x, y].Sublist (List.foldl (fun acc q => mmInsert q.1 q.2 acc) acc l)) ∧
      (∀ p ∈ acc, ∀ q ∈ l,
        (p.1 ≤ q.1 →
          [p, q].Sublist (List.foldl (fun acc q => mmInsert q.1 q.2 acc) acc l)) ∧
        (q.1 < p.1 →
          [q, p].Sublist (List.foldl (fun acc q => mmInsert q.1 q.2 acc) acc l))) ∧
      (∀ a b : Nat, a < b → b < l.length →
        ((l.getD a (0, [])).1 ≤ (l.getD b (0, [])).1 →
          [l.getD a (0, []), l.getD b (0, [])].Sublist
            (List.foldl (fun acc q => mmInsert q.1 q.2 acc) acc l)) ∧
        ((l.getD b (0, [])).1 < (l.getD a (0, [])).1 →
          [l.getD b (0, []), l.getD a (0, [])].Sublist
            (List.foldl (fun acc q => mmInsert q.1 q.2 acc) acc l))) := by
  intro l
  induction l with
  | nil =>
    intro acc _
    refine ⟨fun x y h => h, ?_, ?_⟩
    · intro p _ q hq
      simp at hq
    · intro a b _ hb
      simp at hb
  | cons q rest ih =>
    intro acc hs
    have hs2 := mmInsert_sorted q.1 q.2 hs
    obtain ⟨i1, i2, i3⟩ := ih (mmInsert q.1 q.2 acc) hs2
    refine ⟨?_, ?_, ?_⟩
    · intro x y h
      exact i1 x y (mmInsert_keeps h)
    · intro p hp w hw
      rcases List.mem_cons.mp hw with hw | hw
      · subst hw
        constructor
        · intro hk
          exact i1 p w (mmInsert_after hs hp hk)
        · intro hk
          exact i1 w p (mmInsert_before hp hk)
      · have hp2 : p ∈ mmInsert q.1 q.2 acc :=
          (mmInsert_perm q.1 q.2 acc).symm.subset (List.mem_cons_of_mem _ hp)
        exact i2 p hp2 w hw
    · intro a b hab hb
      cases a with
      | zero =>
        cases b with
        | zero => omega
        | succ j =>
          have hj : j < rest.length := by
            simp only [List.length_cons] at hb
            omega
          have hq0 : q ∈ mmInsert q.1 q.2 acc :=
            (mmInsert_perm q.1 q.2 acc).symm.subset (List.mem_cons_self _ _)
          have hmem : rest.getD j (0, []) ∈ rest := by
            rw [List.getD_eq_getElem _ _ hj]
            exact List.getElem_mem hj
          exact i2 q hq0 _ hmem
      | succ i =>
        cases b with
        | zero => omega
        | succ j =>
          have hj : j < rest.length := by
            simp only [List.length_cons] at hb
            omega
          exact i3 i j (by omega) hj

/-! ## Positions inside a concatenation of segments -/

theorem take_flatten_succ :
    ∀ (L : List (List Nat)) (s : Nat), s < L.length →
      (L.take (s+1)).flatten.length
        = (L.take s).flatten.length + (L.getD s []).length := by
  intro L
  induction L with
  | nil =>
    intro s hs
    simp at hs
  | cons h L2 ih =>
    intro s hs
    cases s with
    | zero => simp
    | succ t =>
      rw [List.take_succ_cons, List.take_succ_cons]
      simp only [List.flatten_cons, List.length_append]
      have hts : t < L2.length := by
        simp only [List.length_cons] at hs
        omega
      rw [ih t hts]
      have hg : (h :: L2).getD (t+1) [] = L2.getD t [] := rfl
      rw [hg]
      omega

theorem take_flatten_mono (L : List (List Nat)) {s t : Nat} (h : s ≤ t) :
    (L.take s).flatten.length ≤ (L.take t).flatten.length := by
  have hd : L.take t = L.take s ++ (L.take t).drop s := by
    conv_lhs => rw [← List.take_append_drop s (L.take t)]
    rw [List.take_take, min_eq_left h]
  rw [hd, List.flatten_append, List.length_append]
  omega

theorem flatten_indexOf_decomp :
    ∀ (L : List (List Nat)) (s : Nat), s < L.length → L.flatten.Nodup →
      ∀ x ∈ L.getD s [],
        L.flatten.indexOf x
          = (L.take s).flatten.length + (L.getD s []).indexOf x := by
  intro L
  induction L with
  | nil =>
    intro s hs
    simp at hs
  | cons h L2 ih =>
    intro s hs hnd x hx
    rw [List.flatten_cons] at hnd
    cases s with
    | zero =>
      have hxh : x ∈ h := hx
      have : ((h :: L2).flatten).indexOf x = (h ++ L2.flatten).indexOf x := rfl
      rw [this, indexOf_append_left_nat L2.flatten hxh]
      simp only [List.take_zero, List.flatten_nil, List.length_nil, Nat.zero_add]
      rfl
    | succ t =>
      have hts : t < L2.length := by
        simp only [List.length_cons] at hs
        omega
      have hxl : x ∈ L2.flatten := by
        refine List.mem_flatten.mpr ⟨L2.getD t [], ?_, hx⟩
        rw [List.getD_eq_getElem _ _ hts]
        exact List.getElem_mem hts
      have hxnh : x ∉ h := by
        intro hc
        exact (List.nodup_append.mp hnd).2.2 hc hxl
      have hflat : ((h :: L2).flatten).indexOf x = (h ++ L2.flatten).indexOf x := rfl
      rw [hflat, List.indexOf_append_of_not_mem hxnh]
      rw [ih t hts (List.nodup_append.mp hnd).2.1 x hx]
      rw [List.take_succ_cons, List.flatten_cons, List.length_append]
      have hg : (h :: L2).getD (t+1) [] = L2.getD t [] := rfl
      rw [hg]
      omega

theorem pair_sublist_positions :
    ∀ {L : List (List Nat)} {x y : List Nat}, [x, y].Sublist L →
      ∃ a b : Nat, a < b ∧ b < L.length ∧ L.getD a [] = x ∧ L.getD b [] = y := by
  intro L
  induction L with
  | nil =>
    intro x y h
    simp at h
  | cons g L2 ih =>
    intro x y h
    cases h with
    | cons c h2 =>
      obtain ⟨a, b, hab, hb, ha2, hb2⟩ := ih h2
      refine ⟨a+1, b+1, by omega, ?_, ha2, hb2⟩
      simp only [List.length_cons]
      omega
    | cons₂ c h2 =>
      have hy : y ∈ L2 := List.singleton_sublist.mp h2
      obtain ⟨⟨b, hb⟩, hget⟩ := List.mem_iff_get.mp hy
      refine ⟨0, b+1, by omega, ?_, rfl, ?_⟩
      · simp only [List.length_cons]
        omega
      · have hg : (g :: L2).getD (b+1) [] = L2.getD b [] := rfl
        rw [hg, List.getD_eq_getElem _ _ hb]
        exact hget


theorem encZip_getD (gps : List Nat) (orders : List (List Nat)) (a : Nat)
    (ha : a < gps.length) (hb : a < orders.length) :
    ((List.zip gps orders).map
        (fun q => (MAX_SYSTEM_PRIORITY - q.1, q.2))).getD a (0, [])
      = (MAX_SYSTEM_PRIORITY - gps.getD a 0, orders.getD a []) := by
  have hlz : a < (List.zip gps orders).length := by
    rw [List.length_zip]
    omega
  have hlm : a < ((List.zip gps orders).map
      (fun q => (MAX_SYSTEM_PRIORITY - q.1, q.2))).length := by
    rw [List.length_map]
    exact hlz
  rw [List.getD_eq_getElem _ _ hlm, List.getElem_map, List.getElem_zip,
    List.getD_eq_getElem _ _ ha, List.getD_eq_getElem _ _ hb]

/-- In the assembled multimap output, every member of the group inserted with
the strictly smaller key (or with an equal key but inserted earlier) sits
strictly before every member of the other group. -/
theorem sortedGroups_flatten_order (gps : List Nat) (orders : List (List Nat))
    (hlen : gps.length = orders.length)
    (hnd : (((sortedGroups gps orders).map Prod.snd)).flatten.Nodup)
    (a b : Nat) (ha : a < gps.length) (hb : b < gps.length)
    (hmaxa : gps.getD a 0 ≤ MAX_SYSTEM_PRIORITY)
    (hmaxb : gps.getD b 0 ≤ MAX_SYSTEM_PRIORITY)
    (horder : gps.getD b 0 < gps.getD a 0
      ∨ (gps.getD a 0 = gps.getD b 0 ∧ a < b)) :
    ∀ u ∈ orders.getD a [], ∀ v ∈ orders.getD b [],
      (((sortedGroups gps orders).map Prod.snd)).flatten.indexOf u
        < (((sortedGroups gps orders).map Prod.snd)).flatten.indexOf v := by
  intro u hu v hv
  have hfold := sortedGroups_eq_foldl gps orders
  have hlenl : ((List.zip gps orders).map
      (fun q => (MAX_SYSTEM_PRIORITY - q.1, q.2))).length = gps.length := by
    rw [List.length_map, List.length_zip, hlen, min_self]
  have hga := encZip_getD gps orders a ha (by omega)
  have hgb := encZip_getD gps orders b hb (by omega)
  obtain ⟨f1, f2, f3⟩ := mmFold_facts
    ((List.zip gps orders).map (fun q => (MAX_SYSTEM_PRIORITY - q.1, q.2))) []
    List.Pairwise.nil
  have hsub : [(MAX_SYSTEM_PRIORITY - gps.getD a 0, orders.getD a []),
      (MAX_SYSTEM_PRIORITY - gps.getD b 0, orders.getD b [])].Sublist
        (sortedGroups gps orders) := by
    rw [hfold]
    rcases horder with hlt | ⟨heq, hab⟩
    · have hkey : MAX_SYSTEM_PRIORITY - gps.getD a 0
          < MAX_SYSTEM_PRIORITY - gps.getD b 0 := by omega
      rcases Nat.lt_trichotomy a b with h1 | h1 | h1
      · have hf := (f3 a b h1 (by omega)).1
        rw [hga, hgb] at hf
        exact hf (le_of_lt hkey)
      · exact absurd (h1 ▸ hlt) (lt_irrefl _)
      · have hf := (f3 b a h1 (by omega)).2
        rw [hga, hgb] at hf
        exact hf hkey
    · have hkey : MAX_SYSTEM_PRIORITY - gps.getD a 0
          ≤ MAX_SYSTEM_PRIORITY - gps.getD b 0 := by omega
      have hf := (f3 a b hab (by omega)).1
      rw [hga, hgb] at hf
      exact hf hkey
  have hsnd : [orders.getD a [], orders.getD b []].Sublist
      ((sortedGroups gps orders).map Prod.snd) := hsub.map Prod.snd
  obtain ⟨sa, sb, hsab, hsblen, hsa, hsb⟩ := pair_sublist_positions hsnd
  have hsalen : sa < ((sortedGroups gps orders).map Prod.snd).length := by omega
  have hdu := flatten_indexOf_decomp ((sortedGroups gps orders).map Prod.snd)
    sa hsalen hnd u (by rw [hsa]; exact hu)
  have hdv := flatten_indexOf_decomp ((sortedGroups gps orders).map Prod.snd)
    sb hsblen hnd v (by rw [hsb]; exact hv)
  rw [hdu, hdv, hsa, hsb]
  have hulen : (orders.getD a []).indexOf u < (orders.getD a []).length :=
    List.indexOf_lt_length.mpr hu
  have hsucc := take_flatten_succ ((sortedGroups gps orders).map Prod.snd)
    sa hsalen
  rw [hsa] at hsucc
  have hmono := take_flatten_mono ((sortedGroups gps orders).map Prod.snd)
    (show sa + 1 ≤ sb by omega)
  omega

/-- C2: the work order built by `UpdateSystemWorkOrder` orders the weak
dependency groups by descending group priority — the maximum member priority,
as recorded by the partitioning — with groups of equal priority kept in the
order the partitioning discovered them: whenever group `a` has strictly
higher recorded priority than group `b`, or equal priority but an earlier
discovery index, every member of group `a` precedes every member of group
`b` in the computed work order (priorities stay within
`MAX_SYSTEM_PRIORITY`, as the registration interface enforces). -/
theorem updateSystemWorkOrder_priority_order (M : DependencyMatrix)
    (prio : List Nat)
    (hpmax : ∀ u, prio.getD u 0 ≤ MAX_SYSTEM_PRIORITY)
    (a b : Nat)
    (ha : a < (buildGroups M prio).1.length)
    (hb : b < (buildGroups M prio).1.length)
    (horder : (buildGroups M prio).2.getD b 0 < (buildGroups M prio).2.getD a 0
      ∨ ((buildGroups M prio).2.getD a 0 = (buildGroups M prio).2.getD b 0
          ∧ a < b)) :
    ∀ u ∈ (buildGroups M prio).1.getD a [],
      ∀ v ∈ (buildGroups M prio).1.getD b [],
        (computeWorkOrder M prio).indexOf u
          < (computeWorkOrder M prio).indexOf v := by
  intro u hu v hv
  obtain ⟨hcov, hnd, hbound, hclosed, hne, hprio⟩ := buildGroups_spec M prio
  obtain ⟨s5, hsegnd, _⟩ := segs_facts M prio
  have hlgs : (buildGroups M prio).2.length = (buildGroups M prio).1.length :=
    hprio.length_eq
  have hlsegs : (buildGroups M prio).1.length
      = (groupSegs M (buildGroups M prio).1
          (List.replicate M.length 0)).length := s5.length_eq
  have hlo : (groupOrdersAux M (buildGroups M prio).1
      (List.replicate M.length 0)).length = (buildGroups M prio).1.length := by
    rw [groupOrdersAux_eq_segs, List.length_map, ← hlsegs]
  have hwo : computeWorkOrder M prio
      = ((sortedGroups (buildGroups M prio).2
          (groupOrdersAux M (buildGroups M prio).1
            (List.replicate M.length 0))).map Prod.snd).flatten := rfl
  have hwnd : (((sortedGroups (buildGroups M prio).2
      (groupOrdersAux M (buildGroups M prio).1
        (List.replicate M.length 0))).map Prod.snd)).flatten.Nodup := by
    rw [← hwo]
    exact (computeWorkOrder_perm M prio).symm.nodup (List.nodup_range _)
  have hmax : ∀ c, c < (buildGroups M prio).2.length →
      (buildGroups M prio).2.getD c 0 ≤ MAX_SYSTEM_PRIORITY := by
    intro c hc
    obtain ⟨hl, hget⟩ := List.forall₂_iff_get.mp hprio
    have hgp := hget c hc (by omega)
    have hcd : (buildGroups M prio).2.getD c 0
        = (buildGroups M prio).2.get ⟨c, hc⟩ := List.getD_eq_getElem _ _ hc
    rcases hgp.2 with h0 | ⟨w, _, he⟩
    · rw [hcd, h0]
      exact Nat.zero_le _
    · rw [hcd, he]
      exact hpmax w
  have hmem : ∀ c, c < (buildGroups M prio).1.length → ∀ x,
      x ∈ (groupOrdersAux M (buildGroups M prio).1
        (List.replicate M.length 0)).getD c []
      ↔ x ∈ (buildGroups M prio).1.getD c [] := by
    intro c hc x
    obtain ⟨hl5, hget5⟩ := List.forall₂_iff_get.mp s5
    have hcseg : c < (groupSegs M (buildGroups M prio).1
        (List.replicate M.length 0)).length := by omega
    have hog : (groupOrdersAux M (buildGroups M prio).1
        (List.replicate M.length 0)).getD c []
        = ((groupSegs M (buildGroups M prio).1
            (List.replicate M.length 0)).getD c []).reverse := by
      rw [groupOrdersAux_eq_segs]
      rw [List.getD_eq_getElem _ _ (by rw [List.length_map]; exact hcseg),
        List.getElem_map, List.getD_eq_getElem _ _ hcseg]
    rw [hog, List.mem_reverse, List.getD_eq_getElem _ _ hcseg,
      List.getD_eq_getElem _ _ hc]
    exact hget5 c hc hcseg x
  rw [hwo]
  refine sortedGroups_flatten_order (buildGroups M prio).2
    (groupOrdersAux M (buildGroups M prio).1 (List.replicate M.length 0))
    (by omega) hwnd a b (by omega) (by omega)
    (hmax a (by omega)) (hmax b (by omega)) horder u ?_ v ?_
  · exact (hmem a ha u).mpr hu
  · exact (hmem b hb v).mpr hv

/-- Closed instance of C2: two independent systems with priorities 5 and 10
land in singleton groups; the priority-10 group's system precedes the
priority-5 group's system in the work order. -/
theorem updateSystemWorkOrder_priority_order_witness :
    (∀ u, [5, 10].getD u 0 ≤ MAX_SYSTEM_PRIORITY) ∧
    0 < (buildGroups [[false, false], [false, false]] [5, 10]).1.length ∧
    1 < (buildGroups [[false, false], [false, false]] [5, 10]).1.length ∧
    (buildGroups [[false, false], [false, false]] [5, 10]).2.getD 1 0
      < (buildGroups [[false, false], [false, false]] [5, 10]).2.getD 0 0 ∧
    1 ∈ (buildGroups [[false, false], [false, false]] [5, 10]).1.getD 0 [] ∧
    0 ∈ (buildGroups [[false, false], [false, false]] [5, 10]).1.getD 1 [] ∧
    (computeWorkOrder [[false, false], [false, false]] [5, 10]).indexOf 1
      < (computeWorkOrder [[false, false], [false, false]] [5, 10]).indexOf 0 := by
  have hbg : buildGroups [[false, false], [false, false]] [5, 10]
      = ([[1], [0]], [10, 5]) := by
    have h : buildGroups [[false, false], [false, false]] [5, 10]
        = buildGroupsLoop [[false, false], [false, false]] [5, 10]
            [(0 : Int), 1] [] [] := rfl
    rw [h]
    norm_num [buildGroupsLoop, floodLoop, markNeighborsAux, edge,
      LOWEST_SYSTEM_PRIORITY, List.getLast, List.dropLast]
  have hpm : ∀ u, [5, 10].getD u 0 ≤ MAX_SYSTEM_PRIORITY := by
    intro u
    match u with
    | 0 => decide
    | 1 => decide
    | n + 2 => exact Nat.zero_le _
  refine ⟨hpm, by rw [hbg]; decide, by rw [hbg]; decide, by rw [hbg]; decide,
    by rw [hbg]; decide, by rw [hbg]; decide, ?_⟩
  exact updateSystemWorkOrder_priority_order [[false, false], [false, false]]
    [5, 10] hpm 0 1 (by rw [hbg]; decide) (by rw [hbg]; decide)
    (Or.inl (by rw [hbg]; decide)) 1 (by rw [hbg]; decide)
    0 (by rw [hbg]; decide)


theorem indexOf_reverse_nodup (l : List Nat) (hnd : l.Nodup) (x : Nat)
    (hx : x ∈ l) : l.reverse.indexOf x = l.length - 1 - l.indexOf x := by
  have hk : l.indexOf x < l.length := List.indexOf_lt_length.mpr hx
  have hp : l.length - 1 - l.indexOf x < l.reverse.length := by
    rw [List.length_reverse]
    omega
  have hval : l.reverse.get ⟨l.length - 1 - l.indexOf x, hp⟩ = x := by
    show l.reverse[l.length - 1 - l.indexOf x] = x
    rw [List.getElem_reverse]
    have he : l.length - 1 - (l.length - 1 - l.indexOf x) = l.indexOf x := by
      omega
    simp only [he]
    exact List.getElem_indexOf hk
  conv_lhs => rw [← hval]
  exact List.indexOf_getElem (List.nodup_reverse.mpr hnd) _ hp

/-- C1: for a square, acyclic dependency matrix, whenever `M[i][j]` holds
(system `i` must run after system `j`), system `j` appears strictly before
system `i` in the work order computed by `UpdateSystemWorkOrder`. -/
theorem updateSystemWorkOrder_topological (M : DependencyMatrix)
    (prio : List Nat) (hsq : SquareMatrix M) (hacyc : Acyclic M)
    (i j : Nat) (hij : edge M i j = true) :
    j ∈ computeWorkOrder M prio ∧ i ∈ computeWorkOrder M prio ∧
    (computeWorkOrder M prio).indexOf j < (computeWorkOrder M prio).indexOf i := by
  have hi : i < M.length := edge_lt_left hij
  have hj : j < M.length := edge_lt_right hsq hij
  have hwop := computeWorkOrder_perm M prio
  refine ⟨hwop.mem_iff.mpr (List.mem_range.mpr hj),
    hwop.mem_iff.mpr (List.mem_range.mpr hi), ?_⟩
  obtain ⟨hcov, hnd, hbound, hclosed, hne, hprio⟩ := buildGroups_spec M prio
  obtain ⟨s5, hsegnd, htopo3⟩ := segs_facts M prio
  have htopo := htopo3 hacyc
  obtain ⟨g, hg, hjg⟩ := List.mem_flatten.mp (hcov j hj)
  have hig : i ∈ g := hclosed g hg j hjg i hi (Or.inl hij)
  obtain ⟨⟨c, hc⟩, hgc⟩ := List.mem_iff_get.mp hg
  obtain ⟨hl5, hget5⟩ := List.forall₂_iff_get.mp s5
  have hcseg : c < (groupSegs M (buildGroups M prio).1
      (List.replicate M.length 0)).length := by omega
  have hiffc := hget5 c hc hcseg
  have hjseg : j ∈ (groupSegs M (buildGroups M prio).1
      (List.replicate M.length 0)).getD c [] := by
    rw [List.getD_eq_getElem _ _ hcseg]
    exact (hiffc j).mpr (by rw [hgc]; exact hjg)
  have hiseg : i ∈ (groupSegs M (buildGroups M prio).1
      (List.replicate M.length 0)).getD c [] := by
    rw [List.getD_eq_getElem _ _ hcseg]
    exact (hiffc i).mpr (by rw [hgc]; exact hig)
  have hsegmem : (groupSegs M (buildGroups M prio).1
      (List.replicate M.length 0)).getD c []
      ∈ groupSegs M (buildGroups M prio).1 (List.replicate M.length 0) := by
    rw [List.getD_eq_getElem _ _ hcseg]
    exact List.getElem_mem hcseg
  have hjflat : j ∈ (groupSegs M (buildGroups M prio).1
      (List.replicate M.length 0)).flatten :=
    List.mem_flatten.mpr ⟨_, hsegmem, hjseg⟩
  have htj := htopo j hjflat i hij
  have hdi := flatten_indexOf_decomp
    (groupSegs M (buildGroups M prio).1 (List.replicate M.length 0))
    c hcseg hsegnd i hiseg
  have hdj := flatten_indexOf_decomp
    (groupSegs M (buildGroups M prio).1 (List.replicate M.length 0))
    c hcseg hsegnd j hjseg
  have hseglt : ((groupSegs M (buildGroups M prio).1
      (List.replicate M.length 0)).getD c []).indexOf i
      < ((groupSegs M (buildGroups M prio).1
          (List.replicate M.length 0)).getD c []).indexOf j := by
    have h2 := htj.2
    rw [hdi, hdj] at h2
    omega
  have hsegndc : ((groupSegs M (buildGroups M prio).1
      (List.replicate M.length 0)).getD c []).Nodup :=
    (List.nodup_flatten.mp hsegnd).1 _ hsegmem
  have hjlen : ((groupSegs M (buildGroups M prio).1
      (List.replicate M.length 0)).getD c []).indexOf j
      < ((groupSegs M (buildGroups M prio).1
          (List.replicate M.length 0)).getD c []).length :=
    List.indexOf_lt_length.mpr hjseg
  have hrevj := indexOf_reverse_nodup _ hsegndc j hjseg
  have hrevi := indexOf_reverse_nodup _ hsegndc i hiseg
  -- the group order, its position in the assembled list
  have hlo : (groupOrdersAux M (buildGroups M prio).1
      (List.replicate M.length 0)).length = (buildGroups M prio).1.length := by
    rw [groupOrdersAux_eq_segs, List.length_map]
    omega
  have hog : (groupOrdersAux M (buildGroups M prio).1
      (List.replicate M.length 0)).getD c []
      = ((groupSegs M (buildGroups M prio).1
          (List.replicate M.length 0)).getD c []).reverse := by
    rw [groupOrdersAux_eq_segs]
    rw [List.getD_eq_getElem _ _ (by rw [List.length_map]; exact hcseg),
      List.getElem_map, List.getD_eq_getElem _ _ hcseg]
  have hocmem : (groupOrdersAux M (buildGroups M prio).1
      (List.replicate M.length 0)).getD c []
      ∈ groupOrdersAux M (buildGroups M prio).1 (List.replicate M.length 0) := by
    rw [List.getD_eq_getElem _ _ (by omega : c < (groupOrdersAux M
      (buildGroups M prio).1 (List.replicate M.length 0)).length)]
    exact List.getElem_mem _
  have hLperm := sortedGroups_snd_perm (buildGroups M prio).2
    (groupOrdersAux M (buildGroups M prio).1 (List.replicate M.length 0))
    (by rw [hlo]; exact hprio.length_eq)
  have hocL : (groupOrdersAux M (buildGroups M prio).1
      (List.replicate M.length 0)).getD c []
      ∈ (sortedGroups (buildGroups M prio).2
          (groupOrdersAux M (buildGroups M prio).1
            (List.replicate M.length 0))).map Prod.snd :=
    hLperm.symm.subset hocmem
  obtain ⟨⟨sc, hsc⟩, hLsc⟩ := List.mem_iff_get.mp hocL
  have hwo : computeWorkOrder M prio
      = ((sortedGroups (buildGroups M prio).2
          (groupOrdersAux M (buildGroups M prio).1
            (List.replicate M.length 0))).map Prod.snd).flatten := rfl
  have hwnd : (((sortedGroups (buildGroups M prio).2
      (groupOrdersAux M (buildGroups M prio).1
        (List.replicate M.length 0))).map Prod.snd)).flatten.Nodup := by
    rw [← hwo]
    exact (computeWorkOrder_perm M prio).symm.nodup (List.nodup_range _)
  have hgetD : ((sortedGroups (buildGroups M prio).2
      (groupOrdersAux M (buildGroups M prio).1
        (List.replicate M.length 0))).map Prod.snd).getD sc []
      = (groupOrdersAux M (buildGroups M prio).1
          (List.replicate M.length 0)).getD c [] := by
    rw [List.getD_eq_getElem _ _ hsc]
    exact hLsc
  have hjoc : j ∈ ((sortedGroups (buildGroups M prio).2
      (groupOrdersAux M (buildGroups M prio).1
        (List.replicate M.length 0))).map Prod.snd).getD sc [] := by
    rw [hgetD, hog, List.mem_reverse]
    exact hjseg
  have hioc : i ∈ ((sortedGroups (buildGroups M prio).2
      (groupOrdersAux M (buildGroups M prio).1
        (List.replicate M.length 0))).map Prod.snd).getD sc [] := by
    rw [hgetD, hog, List.mem_reverse]
    exact hiseg
  have hdLj := flatten_indexOf_decomp ((sortedGroups (buildGroups M prio).2
    (groupOrdersAux M (buildGroups M prio).1
      (List.replicate M.length 0))).map Prod.snd) sc hsc hwnd j hjoc
  have hdLi := flatten_indexOf_decomp ((sortedGroups (buildGroups M prio).2
    (groupOrdersAux M (buildGroups M prio).1
      (List.replicate M.length 0))).map Prod.snd) sc hsc hwnd i hioc
  rw [hwo, hdLj, hdLi, hgetD, hog, hrevj, hrevi]
  omega

/-- Closed instance of C1 on the two-system matrix with the single edge
`M[0][1]` (system 0 runs after system 1): acyclicity holds and system 1
precedes system 0 in the computed work order. -/
theorem updateSystemWorkOrder_topological_witness :
    SquareMatrix [[false, true], [false, false]] ∧
    Acyclic [[false, true], [false, false]] ∧
    edge [[false, true], [false, false]] 0 1 = true ∧
    1 ∈ computeWorkOrder [[false, true], [false, false]] [0, 0] ∧
    (computeWorkOrder [[false, true], [false, false]] [0, 0]).indexOf 1
      < (computeWorkOrder [[false, true], [false, false]] [0, 0]).indexOf 0 := by
  have hed : ∀ a b : Nat, edge [[false, true], [false, false]] a b = true →
      a = 0 ∧ b = 1 := by
    intro a b h
    match a, b with
    | 0, 0 => exact absurd h (by decide)
    | 0, 1 => exact ⟨rfl, rfl⟩
    | 0, Nat.succ (Nat.succ m) =>
      exfalso
      rw [edge] at h
      have h2 : ([false, true] : List Bool).getD (m + 2) false = true := h
      rw [List.getD_eq_default _ _ (by simp : ([false, true] :
        List Bool).length ≤ m + 2)] at h2
      exact Bool.false_ne_true h2
    | 1, m =>
      exfalso
      rw [edge] at h
      rcases m with _ | _ | m2
      · exact Bool.false_ne_true h
      · exact Bool.false_ne_true h
      · have h2 : ([false, false] : List Bool).getD (m2 + 2) false = true := h
        rw [List.getD_eq_default _ _ (by simp : ([false, false] :
          List Bool).length ≤ m2 + 2)] at h2
        exact Bool.false_ne_true h2
    | Nat.succ (Nat.succ a2), m =>
      exfalso
      rw [edge] at h
      rw [List.getD_eq_default _ _ (by simp : ([[false, true],
        [false, false]] : List (List Bool)).length ≤ a2 + 2)] at h
      simp at h
  have hacyc : Acyclic [[false, true], [false, false]] := by
    intro i hp
    have hone : ∀ x : Nat, ¬ MPath [[false, true], [false, false]] 1 x := by
      intro x hx
      cases hx with
      | single he => exact absurd (hed _ _ he).1 (by omega)
      | cons he _ => exact absurd (hed _ _ he).1 (by omega)
    cases hp with
    | single he =>
      obtain ⟨h1, h2⟩ := hed _ _ he
      omega
    | cons he hp2 =>
      obtain ⟨h1, h2⟩ := hed _ _ he
      rw [h2] at hp2
      rw [h1] at hp2
      exact hone 0 hp2
  have hsq : SquareMatrix [[false, true], [false, false]] := by
    intro row hrow
    rcases List.mem_cons.mp hrow with h | h
    · rw [h]; rfl
    · rcases List.mem_cons.mp h with h2 | h2
      · rw [h2]; rfl
      · simp at h2
  have h := updateSystemWorkOrder_topological [[false, true], [false, false]]
    [0, 0] hsq hacyc 0 1 (by decide)
  exact ⟨hsq, hacyc, by decide, h.1, h.2.2⟩


/-- C3: the per-group DFS of `UpdateSystemWorkOrder` skips a vertex whose
state is already non-white; on a white vertex it recursively visits exactly
the not-yet-visited predecessors under the directed edge `M[i][j]` — every
emission of the recursion was unvisited, reachable through predecessor
edges and (for an edge-closed group containing the vertex) a member of that
group, every unvisited predecessor gets emitted, already-visited vertices
are never re-emitted — then appends the vertex itself to the postorder after
the recursion; each group's internal order is the reverse of the postorder
segment its pass emits. -/
theorem dfs_visits_unvisited_preds (M : DependencyMatrix) (fuel v : Nat)
    (st out : List Nat) (g : List Nat)
    (hfuel : countZeros st ≤ fuel)
    (hlen : M.length ≤ st.length)
    (hinv : DfsInv st out)
    (hv : v ∈ g)
    (hcl : ∀ u ∈ g, ∀ i, edge M i u = true → i ∈ g) :
    (st.getD v 1 ≠ 0 → dfsVisit M fuel v st out = (st, out)) ∧
    (st.getD v 1 = 0 → ∃ d,
      (dfsVisit M fuel v st out).2 = out ++ d ++ [v] ∧
      (∀ w ∈ d, st.getD w 1 = 0 ∧ TravReach M v w ∧ w ∈ g) ∧
      v ∉ d ∧
      (∀ i, edge M i v = true → st.getD i 1 = 0 → i ∈ d ∨ i = v) ∧
      (∀ i, st.getD i 1 ≠ 0 → i ∉ d)) ∧
    (∀ (gs : List (List Nat)) (st2 : List Nat),
      groupOrdersAux M gs st2 = (groupSegs M gs st2).map List.reverse) := by
  refine ⟨?_, ?_, groupOrdersAux_eq_segs M⟩
  · intro hnz
    cases fuel with
    | zero => rw [dfsVisit]
    | succ f =>
      rw [dfsVisit]
      rw [if_neg hnz]
  · intro h0
    cases fuel with
    | zero =>
      exfalso
      have := countZeros_pos h0
      omega
    | succ f =>
      have he : dfsVisit M (f+1) v st out =
          if st.getD v 1 = 0 then
            ((dfsLoop M f v (List.range st.length) (st.set v 1) out).1.set v 2,
             (dfsLoop M f v (List.range st.length) (st.set v 1) out).2 ++ [v])
          else (st, out) := by
        rw [dfsVisit]
      rw [he, if_pos h0]
      have hvlt : v < st.length := white_lt_length h0
      have hlp := (dfs_post M f).2 v (List.range st.length) (st.set v 1) out
      obtain ⟨d, hd1, hd2⟩ := hlp.delta
      have hinv2 : DfsInv (st.set v 1) out := by
        obtain ⟨q1, q2, q3⟩ := hinv
        refine ⟨?_, q2, ?_⟩
        · intro w
          by_cases hw : w = v
          · rw [hw, getD_set_self_st hvlt]
            exact Or.inr (Or.inl rfl)
          · rw [getD_set_ne_st v w 1 1 hw]
            exact q1 w
        · intro w
          by_cases hw : w = v
          · rw [hw, getD_set_self_st hvlt]
            constructor
            · intro hcc
              exact absurd hcc (by decide)
            · intro hcc
              have h2 := (q3 v).mpr hcc
              rw [h0] at h2
              exact absurd h2 (by decide)
          · rw [getD_set_ne_st v w 1 1 hw]
            exact q3 w
      have hcz : countZeros (st.set v 1) ≤ f := by
        have := countZeros_set_one h0
        omega
      refine ⟨d, ?_, ?_, ?_, ?_, ?_⟩
      · show (dfsLoop M f v (List.range st.length) (st.set v 1) out).2 ++ [v]
            = out ++ d ++ [v]
        rw [hd1]
      · intro w hw
        obtain ⟨hw0, hwt⟩ := hd2 w hw
        have hwv : w ≠ v := by
          intro hc
          rw [hc, getD_set_self_st hvlt] at hw0
          exact absurd hw0 (by decide)
        rw [getD_set_ne_st v w 1 1 hwv] at hw0
        exact ⟨hw0, hwt, travReach_closed hcl hv hwt⟩
      · intro hc
        obtain ⟨hw0, _⟩ := hd2 v hc
        rw [getD_set_self_st hvlt] at hw0
        exact absurd hw0 (by decide)
      · intro i hie hi0
        by_cases hiv : i = v
        · exact Or.inr hiv
        · left
          have hilt : i < st.length := white_lt_length hi0
          have hist : (st.set v 1).getD i 1 = 0 := by
            rw [getD_set_ne_st v i 1 1 hiv]
            exact hi0
          have hnz2 := hlp.compl hcz i (List.mem_range.mpr hilt) hie
          have hinvp := hlp.inv (by rw [List.length_set]; exact hlen) hinv2
          rcases hlp.nogray i hist with hcc | hcc
          · exact absurd hcc hnz2
          · have hiout := (hinvp.2.2 i).mp hcc
            rw [hd1] at hiout
            rcases List.mem_append.mp hiout with hm | hm
            · have h2 := (hinv.2.2 i).mpr hm
              rw [hi0] at h2
              exact absurd h2 (by decide)
            · exact hm
      · intro i hinz hc
        obtain ⟨hw0, _⟩ := hd2 i hc
        have hiv : i ≠ v := by
          intro hcc
          rw [hcc, getD_set_self_st hvlt] at hw0
          exact absurd hw0 (by decide)
        rw [getD_set_ne_st v i 1 1 hiv] at hw0
        exact hinz hw0

/-- Closed instance of C3 on the two-system matrix with the single edge
`M[0][1]`, an all-white state and the full group: the DFS hypotheses hold
and the group order is the reversed emitted postorder segment. -/
theorem dfs_visits_unvisited_preds_witness :
    countZeros (List.replicate 2 0) ≤ 2 ∧
    [[false, true], [false, false]].length ≤ (List.replicate 2 0).length ∧
    DfsInv (List.replicate 2 0) [] ∧
    0 ∈ [0, 1] ∧
    groupOrdersAux [[false, true], [false, false]] [[0, 1]]
        (List.replicate 2 0)
      = (groupSegs [[false, true], [false, false]] [[0, 1]]
          (List.replicate 2 0)).map List.reverse := by
  have hed : ∀ a b : Nat, edge [[false, true], [false, false]] a b = true →
      a = 0 ∧ b = 1 := by
    intro a b h
    match a, b with
    | 0, 0 => exact absurd h (by decide)
    | 0, 1 => exact ⟨rfl, rfl⟩
    | 0, Nat.succ (Nat.succ m) =>
      exfalso
      rw [edge] at h
      have h2 : ([false, true] : List Bool).getD (m + 2) false = true := h
      rw [List.getD_eq_default _ _ (by simp : ([false, true] :
        List Bool).length ≤ m + 2)] at h2
      exact Bool.false_ne_true h2
    | 1, m =>
      exfalso
      rw [edge] at h
      rcases m with _ | _ | m2
      · exact Bool.false_ne_true h
      · exact Bool.false_ne_true h
      · have h2 : ([false, false] : List Bool).getD (m2 + 2) false = true := h
        rw [List.getD_eq_default _ _ (by simp : ([false, false] :
          List Bool).length ≤ m2 + 2)] at h2
        exact Bool.false_ne_true h2
    | Nat.succ (Nat.succ a2), m =>
      exfalso
      rw [edge] at h
      rw [List.getD_eq_default _ _ (by simp : ([[false, true],
        [false, false]] : List (List Bool)).length ≤ a2 + 2)] at h
      simp at h
  have hcl : ∀ u ∈ [0, 1], ∀ i,
      edge [[false, true], [false, false]] i u = true → i ∈ [0, 1] := by
    intro u _ i hie
    obtain ⟨h1, _⟩ := hed i u hie
    rw [h1]
    decide
  have hinv := dfsInv_init 2
  have h := dfs_visits_unvisited_preds [[false, true], [false, false]] 2 0
    (List.replicate 2 0) [] [0, 1] (by decide) (by decide) hinv
    (by decide) hcl
  exact ⟨by decide, by decide, hinv, by decide,
    h.2.2 [[0, 1]] (List.replicate 2 0)⟩


end ECS
